import Mathlib

/-!
Verification development for the LLMEasyTools repository
(`llm_easy_tools/schema_generator.py` and `llm_easy_tools/processor.py`).

The Python code is shallowly embedded:

* Python dictionaries become ordered association lists (`List (String × Json)`),
  with `setKey` mirroring `d[k] = v` (update-in-place keeps the key's
  position, a new key is appended) and `delKey` mirroring `del d[k]`.
* `json.loads` is embedded as a recursive-descent parser `json_loads` over
  `List Char` (sufficient for the object/array/string/integer fragment that
  the repository's dispatch path exercises); parse failure models
  `json.JSONDecodeError`.
* Exceptions become `Except`: an uncaught Python exception is `Except.error`,
  a caught one is stored in the `ToolResult` record exactly as the source does.
* Recursive tree transforms (`_ensure_strict_json_schema`,
  `_recursive_purge_titles`) are written fuel-indexed so that they compute by
  kernel reduction; the public wrappers instantiate the fuel with `sizeOf`,
  which always suffices (each recursive call strictly decreases the subterm).
-/

namespace LLMEasyTools

/-- JSON values; `obj` keeps insertion order like a Python `dict`. -/
inductive Json where
  | null : Json
  | bool : Bool → Json
  | num : Int → Json
  | str : String → Json
  | arr : List Json → Json
  | obj : List (String × Json) → Json

mutual

/-- Size of a JSON tree, used as fuel for the fuel-indexed tree transforms
(any fuel of at least this size lets them run to completion). -/
def jsize : Json → Nat
  | .obj kvs => 1 + jsizeKVs kvs
  | .arr xs => 1 + jsizeList xs
  | _ => 1

/-- Size of the entry list of an object node. -/
def jsizeKVs : List (String × Json) → Nat
  | [] => 1
  | p :: rest => 1 + jsize p.2 + jsizeKVs rest

/-- Size of the element list of an array node. -/
def jsizeList : List Json → Nat
  | [] => 1
  | j :: rest => 1 + jsize j + jsizeList rest

end

theorem jsize_pos (j : Json) : 0 < jsize j := by
  cases j <;> simp [jsize]

/-- `d.get(k)` on a Python dict embedded as an ordered association list. -/
def getKey : List (String × Json) → String → Option Json
  | [], _ => Option.none
  | (k, v) :: rest, key => if k = key then some v else getKey rest key

/-- `k in d` on a Python dict. -/
def hasKey (l : List (String × Json)) (k : String) : Bool :=
  (getKey l k).isSome

/-- `d[k] = v` on a Python dict: an existing key keeps its position, a new
key is appended at the end. -/
def setKey : List (String × Json) → String → Json → List (String × Json)
  | [], key, v => [(key, v)]
  | (k, w) :: rest, key, v =>
    if k = key then (k, v) :: rest else (k, w) :: setKey rest key v

/-- `d.pop(k, default)` / `del d[k]`: remove the entry for `k` if present. -/
def delKey : List (String × Json) → String → List (String × Json)
  | [], _ => []
  | (k, w) :: rest, key => if k = key then rest else (k, w) :: delKey rest key

theorem getKey_setKey_self (l : List (String × Json)) (k : String) (v : Json) :
    getKey (setKey l k v) k = some v := by
  induction l with
  | nil => simp [setKey, getKey]
  | cons p rest ih =>
    by_cases h : p.1 = k
    · simp [setKey, getKey, h]
    · simp [setKey, getKey, h, ih]

theorem getKey_setKey_ne (l : List (String × Json)) (k k' : String) (v : Json)
    (h : k' ≠ k) : getKey (setKey l k v) k' = getKey l k' := by
  induction l with
  | nil => simp [setKey, getKey, h.symm]
  | cons p rest ih =>
    by_cases hp : p.1 = k
    · obtain ⟨pk, pv⟩ := p
      simp only at hp
      subst hp
      simp only [setKey, if_pos rfl, getKey]
      rw [if_neg (h.symm), if_neg (h.symm)]
    · obtain ⟨pk, pv⟩ := p
      simp only at hp
      simp only [setKey, if_neg hp, getKey]
      by_cases hq : pk = k'
      · simp [hq]
      · simp [hq, ih]

theorem getKey_delKey_ne (l : List (String × Json)) (k k' : String)
    (h : k' ≠ k) : getKey (delKey l k) k' = getKey l k' := by
  induction l with
  | nil => simp [delKey]
  | cons p rest ih =>
    obtain ⟨pk, pv⟩ := p
    by_cases hp : pk = k
    · subst hp
      simp [delKey, getKey, h.symm]
    · simp only [delKey, if_neg hp, getKey]
      by_cases hq : pk = k'
      · simp [hq]
      · simp [hq, ih]

theorem getKey_mem {l : List (String × Json)} {k : String} {v : Json}
    (h : getKey l k = some v) : (k, v) ∈ l := by
  induction l with
  | nil => simp [getKey] at h
  | cons p rest ih =>
    obtain ⟨pk, pv⟩ := p
    by_cases hp : pk = k
    · subst hp
      simp only [getKey, if_true, eq_self_iff_true, Option.some.injEq] at h
      subst h
      exact List.mem_cons_self _ _
    · simp only [getKey, if_neg hp] at h
      exact List.mem_cons_of_mem _ (ih h)

theorem jsize_snd_lt_of_mem {l : List (String × Json)} {k : String} {v : Json}
    (h : (k, v) ∈ l) : jsize v < jsizeKVs l := by
  induction l with
  | nil => simp at h
  | cons p rest ih =>
    rcases List.mem_cons.mp h with h | h
    · obtain ⟨pk, pv⟩ := p
      cases h
      simp [jsizeKVs]
      omega
    · have := ih h
      simp [jsizeKVs]
      omega

theorem jsize_mem_lt_of_mem {l : List Json} {v : Json}
    (h : v ∈ l) : jsize v < jsizeList l := by
  induction l with
  | nil => simp at h
  | cons p rest ih =>
    rcases List.mem_cons.mp h with h | h
    · subst h
      simp [jsizeList]
      omega
    · have := ih h
      simp [jsizeList]
      omega

theorem getKey_jsize {l : List (String × Json)} {k : String} {v : Json}
    (h : getKey l k = some v) : jsize v < jsize (Json.obj l) := by
  have := jsize_snd_lt_of_mem (getKey_mem h)
  simp [jsize]
  omega

/-- Effectful map over `Except`, written recursively so that proofs can
invert it step by step (and so that it computes by kernel reduction). -/
def mapME {α β : Type} {ε : Type} (f : α → Except ε β) : List α → Except ε (List β)
  | [] => .ok []
  | x :: rest =>
    match f x with
    | .error e => .error e
    | .ok y =>
      match mapME f rest with
      | .error e => .error e
      | .ok ys => .ok (y :: ys)

theorem mapME_mem {α β ε : Type} {f : α → Except ε β} {l : List α} {l' : List β}
    (h : mapME f l = .ok l') : ∀ y ∈ l', ∃ x ∈ l, f x = .ok y := by
  induction l generalizing l' with
  | nil =>
    simp [mapME] at h
    subst h
    simp
  | cons x rest ih =>
    simp only [mapME] at h
    cases hx : f x with
    | error e => rw [hx] at h; simp at h
    | ok y =>
      rw [hx] at h
      cases hr : mapME f rest with
      | error e => rw [hr] at h; simp at h
      | ok ys =>
        rw [hr] at h
        simp only [Except.ok.injEq] at h
        subst h
        intro z hz
        rcases List.mem_cons.mp hz with hz | hz
        · exact ⟨x, List.mem_cons_self _ _, hz ▸ hx⟩
        · rcases ih hr z hz with ⟨w, hw, hfw⟩
          exact ⟨w, List.mem_cons_of_mem _ hw, hfw⟩

/-- `mapME` specialised to transforming the values of an association list
while keeping the keys. -/
def mapPairsME {ε : Type} (g : String × Json → Except ε Json)
    (l : List (String × Json)) : Except ε (List (String × Json)) :=
  match l with
  | [] => .ok []
  | p :: rest =>
    match g p with
    | .error e => .error e
    | .ok w =>
      match mapPairsME g rest with
      | .error e => .error e
      | .ok ws => .ok ((p.1, w) :: ws)

theorem mapPairsME_keys {ε : Type} {g : String × Json → Except ε Json}
    {l l' : List (String × Json)} (h : mapPairsME g l = .ok l') :
    l'.map Prod.fst = l.map Prod.fst := by
  induction l generalizing l' with
  | nil =>
    simp [mapPairsME] at h
    subst h
    simp
  | cons x rest ih =>
    simp only [mapPairsME] at h
    cases hx : g x with
    | error e => rw [hx] at h; simp at h
    | ok y =>
      rw [hx] at h
      cases hr : mapPairsME g rest with
      | error e => rw [hr] at h; simp at h
      | ok ys =>
        rw [hr] at h
        simp only [Except.ok.injEq] at h
        subst h
        simp [ih hr]

theorem mapPairsME_mem {ε : Type} {g : String × Json → Except ε Json}
    {l l' : List (String × Json)} (h : mapPairsME g l = .ok l') :
    ∀ q ∈ l', ∃ p ∈ l, g p = .ok q.2 ∧ q.1 = p.1 := by
  induction l generalizing l' with
  | nil =>
    simp [mapPairsME] at h
    subst h
    simp
  | cons x rest ih =>
    simp only [mapPairsME] at h
    cases hx : g x with
    | error e => rw [hx] at h; simp at h
    | ok y =>
      rw [hx] at h
      cases hr : mapPairsME g rest with
      | error e => rw [hr] at h; simp at h
      | ok ys =>
        rw [hr] at h
        simp only [Except.ok.injEq] at h
        subst h
        intro q hq
        rcases List.mem_cons.mp hq with hq | hq
        · subst hq
          exact ⟨x, List.mem_cons_self _ _, hx, rfl⟩
        · rcases ih hr q hq with ⟨p, hp, hgp, hqp⟩
          exact ⟨p, List.mem_cons_of_mem _ hp, hgp, hqp⟩

/-! ### Character and string helpers (faithful to the Python `str` methods) -/

/-- The double-quote character. -/
def quoteC : Char := Char.ofNat 34

/-- The opening-brace character. -/
def lbraceC : Char := Char.ofNat 123

/-- The closing-brace character. -/
def rbraceC : Char := Char.ofNat 125

/-- The backslash character. -/
def backslashC : Char := Char.ofNat 92

/-- Python `str.lower` (ASCII fragment). -/
def lowerS (s : String) : String := String.mk (s.data.map Char.toLower)

/-- Python slicing `s[n:]` (by characters, forgiving past the end). -/
def dropS (s : String) (n : Nat) : String := String.mk (s.data.drop n)

/-- Python `s.startswith(p)`. -/
def startsWithS (s p : String) : Bool := p.data.isPrefixOf s.data

/-- Python whitespace for `str.strip` (the characters it removes). -/
def isPyWs (c : Char) : Bool :=
  c = ' ' || c = '\t' || c = '\n' || c = '\r' || c = Char.ofNat 11 || c = Char.ofNat 12

/-- Python `s.strip()`. -/
def pyStrip (s : String) : String :=
  String.mk (((s.data.dropWhile isPyWs).reverse.dropWhile isPyWs).reverse)

/-- Python `s.split(sep)` for a single-character separator (keeps empty pieces). -/
def pySplit : List Char → Char → List (List Char)
  | [], _ => [[]]
  | c :: rest, sep =>
    match pySplit rest sep with
    | [] => [[]]
    | piece :: pieces =>
      if c = sep then [] :: piece :: pieces else (c :: piece) :: pieces

/-- One fuel-indexed pass of Python `str.replace` (left-to-right,
non-overlapping); fuel = length of the subject suffices. -/
def replaceFrom : Nat → List Char → List Char → List Char → List Char
  | 0, s, _, _ => s
  | fuel + 1, s, old, new =>
    if old.isPrefixOf s then new ++ replaceFrom fuel (s.drop old.length) old new
    else
      match s with
      | [] => []
      | c :: rest => c :: replaceFrom fuel rest old new

/-- Python `s.replace(old, new)` for non-empty `old`. -/
def pyReplace (s old new : String) : String :=
  String.mk (replaceFrom s.data.length s.data old.data new.data)

/-! ### `json.loads`

A recursive-descent parser for the JSON fragment the repository's dispatch
path exercises (objects, arrays, strings without escapes, integers, literals).
As in Python's `json` module, a trailing comma before a closing brace or
bracket is a parse error. The functions are fuel-indexed so that they compute
by kernel reduction; `json_loads` supplies ample fuel. -/

/-- Whitespace skipped by the JSON parser. -/
def jSkipWs : List Char → List Char
  | [] => []
  | c :: cs => if c = ' ' || c = '\t' || c = '\n' || c = '\r' then jSkipWs cs else c :: cs

/-- The single-character JSON escape sequences (`\uXXXX` is not modelled;
none of the dispatched payloads need it). -/
def jEscape (c : Char) : Option Char :=
  if c = quoteC then some quoteC
  else if c = backslashC then some backslashC
  else if c = '/' then some '/'
  else if c = 'n' then some '\n'
  else if c = 't' then some '\t'
  else if c = 'r' then some '\r'
  else if c = 'b' then some (Char.ofNat 8)
  else if c = 'f' then some (Char.ofNat 12)
  else Option.none

/-- Parse the remainder of a JSON string (after the opening quote). -/
def parseJStr : List Char → Except String (String × List Char)
  | [] => .error "Unterminated string"
  | c :: rest =>
    if c = quoteC then .ok ("", rest)
    else if c = backslashC then
      match rest with
      | [] => .error "Unterminated string"
      | e :: rest' =>
        match jEscape e with
        | Option.none => .error "Invalid escape"
        | some d =>
          match parseJStr rest' with
          | .ok (s, r) => .ok (String.mk (d :: s.data), r)
          | .error e2 => .error e2
    else
      match parseJStr rest with
      | .ok (s, r) => .ok (String.mk (c :: s.data), r)
      | .error e => .error e

/-- Decimal digits to a natural number. -/
def digitsToNat (ds : List Char) : Nat :=
  ds.foldl (fun acc c => acc * 10 + (c.toNat - 48)) 0

/-- Parse an optionally signed integer literal. -/
def parseJNum : List Char → Except String (Json × List Char)
  | [] => .error "Expecting value"
  | c :: rest =>
    if c = '-' then
      match rest.span Char.isDigit with
      | ([], _) => .error "Expecting value"
      | (ds, r) => .ok (.num (-(digitsToNat ds : Int)), r)
    else
      match (c :: rest).span Char.isDigit with
      | ([], _) => .error "Expecting value"
      | (ds, r) => .ok (.num (digitsToNat ds), r)

/-- Parse the members of a JSON object; `cs` is positioned at the start of a
key. `rec` parses one value. Mirrors Python's error on a trailing comma. -/
def parseJMembers (rec : List Char → Except String (Json × List Char)) :
    Nat → List Char → List (String × Json) → Except String (Json × List Char)
  | 0, _, _ => .error "out of fuel"
  | fuel + 1, cs, acc =>
    match cs with
    | [] => .error "Expecting property name enclosed in double quotes"
    | c :: rest =>
      if c = quoteC then
        match parseJStr rest with
        | .error e => .error e
        | .ok (k, r1) =>
          match jSkipWs r1 with
          | ':' :: r2 =>
            match rec r2 with
            | .error e => .error e
            | .ok (v, r3) =>
              match jSkipWs r3 with
              | ',' :: r4 => parseJMembers rec fuel (jSkipWs r4) (acc ++ [(k, v)])
              | d :: r4 =>
                if d = rbraceC then .ok (.obj (acc ++ [(k, v)]), r4)
                else .error "Expecting delimiter"
              | [] => .error "Expecting delimiter"
          | _ => .error "Expecting colon delimiter"
      else .error "Expecting property name enclosed in double quotes"

/-- Parse the items of a JSON array; `cs` is positioned at the start of an
item. -/
def parseJItems (rec : List Char → Except String (Json × List Char)) :
    Nat → List Char → List Json → Except String (Json × List Char)
  | 0, _, _ => .error "out of fuel"
  | fuel + 1, cs, acc =>
    match rec cs with
    | .error e => .error e
    | .ok (v, r1) =>
      match jSkipWs r1 with
      | ',' :: r2 => parseJItems rec fuel (jSkipWs r2) (acc ++ [v])
      | ']' :: r2 => .ok (.arr (acc ++ [v]), r2)
      | _ => .error "Expecting delimiter"

/-- Parse one JSON value (leading whitespace allowed). -/
def parseJVal : Nat → List Char → Except String (Json × List Char)
  | 0, _ => .error "out of fuel"
  | fuel + 1, cs =>
    match jSkipWs cs with
    | [] => .error "Expecting value"
    | c :: rest =>
      if c = lbraceC then
        match jSkipWs rest with
        | d :: r1 =>
          if d = rbraceC then .ok (.obj [], r1)
          else parseJMembers (parseJVal fuel) fuel (d :: r1) []
        | [] => .error "Expecting property name enclosed in double quotes"
      else if c = '[' then
        match jSkipWs rest with
        | ']' :: r1 => .ok (.arr [], r1)
        | r1 => parseJItems (parseJVal fuel) fuel r1 []
      else if c = quoteC then
        match parseJStr rest with
        | .ok (s, r) => .ok (.str s, r)
        | .error e => .error e
      else
        match c :: rest with
        | 't' :: 'r' :: 'u' :: 'e' :: r => .ok (.bool true, r)
        | 'f' :: 'a' :: 'l' :: 's' :: 'e' :: r => .ok (.bool false, r)
        | 'n' :: 'u' :: 'l' :: 'l' :: r => .ok (.null, r)
        | cs' => parseJNum cs'

/-- The errors the processor distinguishes; `str(e)` of each is the carried
message. -/
inductive PyError where
  | jsonDecodeError : String → PyError
  | noMatchingTool : String → PyError
  | validationError : String → PyError
  | typeError : String → PyError
  | keyError : String → PyError
  | userError : String → PyError
deriving DecidableEq

/-- `json.loads` on a whole document. -/
def json_loads (s : String) : Except PyError Json :=
  match parseJVal (2 * s.data.length + 8) s.data with
  | .error e => .error (.jsonDecodeError e)
  | .ok (v, rest) =>
    if (jSkipWs rest).isEmpty then .ok v
    else .error (.jsonDecodeError "Extra data")

/-- Line 52 of `processor.py`:
`args.replace(', }', '}').replace(',}', '}')` — the narrow trailing-comma
repair applied when `fix_json_args` is enabled. -/
def fixArgs (s : String) : String :=
  pyReplace (pyReplace s (String.mk [',', ' ', rbraceC]) (String.mk [rbraceC]))
    (String.mk [',', rbraceC]) (String.mk [rbraceC])

/-! ### `schema_generator.py`: `_recursive_purge_titles`

The Python function visits a value; on a non-`dict` (including a `list`) it
does nothing, so nodes inside list values — such as `anyOf`/`allOf` branches —
are never visited. On a `dict` it deletes the key `'title'` when the same
`dict` also carries a key `'type'` (the `'type'` key is never deleted, so the
condition is stable across the loop) and recurses into every remaining value. -/

/-- Fuel-indexed version of `_recursive_purge_titles` (as a pure
transformation; the Python original mutates in place). -/
def purgeTitlesF : Nat → Json → Json
  | 0, j => j
  | fuel + 1, .obj kvs =>
    let kvs1 := if hasKey kvs "type" then kvs.filter (fun p => !(p.1 == "title")) else kvs
    .obj (kvs1.map (fun p => (p.1, purgeTitlesF fuel p.2)))
  | _ + 1, j => j

/-- `_recursive_purge_titles`. -/
def purgeTitles (j : Json) : Json := purgeTitlesF (jsize j) j

/-! ### `schema_generator.py`: `_ensure_strict_json_schema`

Each `stepX` helper mirrors one read-then-write block of the Python function;
`rec` is the recursive call on sub-schemas. All reads happen on the original
node (`orig`) and the writes are threaded through `cur`, exactly like the
in-place mutation sequence of the source (no later read touches a key an
earlier write modified). -/

/-- Does the node carry `"type": "object"`? -/
def isTypeObject (kvs : List (String × Json)) : Bool :=
  match getKey kvs "type" with
  | some (.str s) => s == "object"
  | _ => false

/-- `is_dict(d.get(k))` view: the entry list when the value under `k` is a
dict. -/
def getObj (l : List (String × Json)) (k : String) :
    Option (List (String × Json)) :=
  match getKey l k with
  | some (.obj m) => some m
  | _ => Option.none

/-- `isinstance(d.get(k), list)` view: the elements when the value under `k`
is a list. -/
def getArr (l : List (String × Json)) (k : String) : Option (List Json) :=
  match getKey l k with
  | some (.arr m) => some m
  | _ => Option.none

/-- Lines 242-244: set `additionalProperties` to `False` on an object node
that does not already have the key. -/
def stepAP (kvs : List (String × Json)) : List (String × Json) :=
  if isTypeObject kvs && !hasKey kvs "additionalProperties" then
    setKey kvs "additionalProperties" (.bool false)
  else kvs

/-- Lines 246-252: if `properties` is a dict, set `required` to the list of
all property keys and replace every property value by its transform. -/
def stepProps (rec : Json → Except String Json) (orig cur : List (String × Json)) :
    Except String (List (String × Json)) :=
  match getObj orig "properties" with
  | some props =>
    match mapPairsME (fun p => rec p.2) props with
    | .error e => .error e
    | .ok props' =>
      .ok (setKey (setKey cur "required" (.arr (props.map (fun p => Json.str p.1))))
        "properties" (.obj props'))
  | Option.none => .ok cur

/-- Lines 254-256: transform a dict-valued `items`. -/
def stepItems (rec : Json → Except String Json) (orig cur : List (String × Json)) :
    Except String (List (String × Json)) :=
  match getObj orig "items" with
  | some its =>
    match rec (.obj its) with
    | .error e => .error e
    | .ok its' => .ok (setKey cur "items" its')
  | Option.none => .ok cur

/-- Lines 258-263 / 264-268: transform every branch of a list-valued
`anyOf`/`allOf` (a non-dict branch raises `TypeError`). -/
def stepBranches (rec : Json → Except String Json) (key : String)
    (orig cur : List (String × Json)) : Except String (List (String × Json)) :=
  match getArr orig key with
  | some xs =>
    match mapME rec xs with
    | .error e => .error e
    | .ok xs' => .ok (setKey cur key (.arr xs'))
  | Option.none => .ok cur

/-- Lines 270-273: transform every entry of a dict-valued `$defs` (the Python
original mutates each entry in place, which is the same replacement). -/
def stepDefs (rec : Json → Except String Json) (orig cur : List (String × Json)) :
    Except String (List (String × Json)) :=
  match getObj orig "$defs" with
  | some ds =>
    match mapPairsME (fun p => rec p.2) ds with
    | .error e => .error e
    | .ok ds' => .ok (setKey cur "$defs" (.obj ds'))
  | Option.none => .ok cur

/-- Fuel-indexed `_ensure_strict_json_schema`; a non-dict argument raises
`TypeError` (modelled as `Except.error`). -/
def ensureStrictF : Nat → Json → Except String Json
  | 0, _ => .error "out of fuel"
  | fuel + 1, .obj kvs =>
    match stepProps (ensureStrictF fuel) kvs (stepAP kvs) with
    | .error e => .error e
    | .ok kvs2 =>
      match stepItems (ensureStrictF fuel) kvs kvs2 with
      | .error e => .error e
      | .ok kvs3 =>
        match stepBranches (ensureStrictF fuel) "anyOf" kvs kvs3 with
        | .error e => .error e
        | .ok kvs4 =>
          match stepBranches (ensureStrictF fuel) "allOf" kvs kvs4 with
          | .error e => .error e
          | .ok kvs5 =>
            match stepDefs (ensureStrictF fuel) kvs kvs5 with
            | .error e => .error e
            | .ok kvs6 => .ok (.obj kvs6)
  | _ + 1, _ => .error "TypeError: expected a dictionary"

/-- `to_strict_json_schema` (= `_ensure_strict_json_schema` from the root). -/
def to_strict_json_schema (j : Json) : Except String Json :=
  ensureStrictF (jsize j) j

/-- `get_function_schema` for a plain callable, given its name, docstring
(already stripped), and the parameter model's pydantic JSON schema.
Key order matches the source: `name`, `description`, then `strict` (strict
mode only), then `parameters`. -/
def get_function_schema (fname description : String) (model_json_schema : Json)
    (case_insensitive : Bool) (strict : Bool) : Except String (List (String × Json)) :=
  let schema_name := if case_insensitive then lowerS fname else fname
  if strict then
    match to_strict_json_schema model_json_schema with
    | .error e => .error e
    | .ok s =>
      .ok [("name", .str schema_name), ("description", .str description),
           ("strict", .bool true), ("parameters", s)]
  else
    .ok [("name", .str schema_name), ("description", .str description),
         ("parameters", purgeTitles model_json_schema)]

/-- Python truthiness of a JSON value (for `if not ...properties`). -/
def jsonTruthy : Json → Bool
  | .null => false
  | .bool b => b
  | .num n => n ≠ 0
  | .str s => !s.data.isEmpty
  | .arr xs => !xs.isEmpty
  | .obj kvs => !kvs.isEmpty

/-- `insert_prefix` (named `insert_prefix_schema` here): `pcName` is the
prefix class's `__name__` and `prefix_model_schema` its pydantic JSON schema
(the embedding of `prefix_class.model_json_schema()`); `schema` is the target
function schema. `Except.error` models an uncaught Python exception — in
particular `prefix_schema['required']` raises `KeyError` when the prefix
model has no required field, because pydantic omits the `required` key then. -/
def insert_prefix_schema (pcName : String) (prefix_model_schema : Json)
    (schema : List (String × Json)) (prefix_schema_name : Bool)
    (case_insensitive : Bool) : Except PyError (List (String × Json)) :=
  match purgeTitles prefix_model_schema with
  | .obj ps0 =>
    let ps1 := delKey ps0 "description"
    let merged? : Except PyError (List (String × Json)) :=
      match getKey schema "parameters" with
      | some (.obj pl) =>
        let required := match getKey pl "required" with
          | some (.arr l) => l
          | _ => []
        match getKey ps1 "required" with
        | some (.arr preq) =>
          match getKey ps1 "properties", getKey pl "properties" with
          | some (.obj pprops), some (.obj tprops) =>
            .ok (setKey (setKey ps1 "required" (.arr (preq ++ required)))
              "properties" (.obj (tprops.foldl (fun acc kv => setKey acc kv.1 kv.2) pprops)))
          | _, _ => .error (.keyError "properties")
        | some _ => .error (.typeError "required is not a list")
        | Option.none => .error (.keyError "required")
      | some _ => .error (.typeError "parameters is not a dict")
      | Option.none => .ok ps1
    match merged? with
    | .error e => .error e
    | .ok ps2 =>
      let new1 := setKey schema "parameters" (.obj ps2)
      match getKey ps2 "properties" with
      | some props =>
        let new2 := if jsonTruthy props then new1 else delKey new1 "parameters"
        if prefix_schema_name then
          match getKey schema "name" with
          | some (.str tname) =>
            let pn := if case_insensitive then lowerS pcName else pcName
            .ok (setKey new2 "name" (.str (pn ++ "_and_" ++ tname)))
          | _ => .error (.keyError "name")
        else .ok new2
      | Option.none => .error (.keyError "properties")
  | _ => .error (.typeError "prefix schema is not a dict")

/-! ### Invariant checkers for the claims about the two tree transforms -/

/-- Fuel-indexed check of a node-local predicate `p` on a node and on every
node reachable from it through the edges that `_ensure_strict_json_schema`
follows: dict-valued `properties` entries, a dict-valued `items`, list-valued
`anyOf`/`allOf` branches, and dict-valued `$defs` entries. -/
def allNodesF (p : List (String × Json) → Bool) : Nat → Json → Bool
  | 0, _ => false
  | fuel + 1, .obj kvs =>
    p kvs
    && (match getObj kvs "properties" with
        | some ps => ps.all (fun q => allNodesF p fuel q.2)
        | Option.none => true)
    && (match getObj kvs "items" with
        | some its => allNodesF p fuel (.obj its)
        | Option.none => true)
    && (match getArr kvs "anyOf" with
        | some xs => xs.all (allNodesF p fuel)
        | Option.none => true)
    && (match getArr kvs "allOf" with
        | some xs => xs.all (allNodesF p fuel)
        | Option.none => true)
    && (match getObj kvs "$defs" with
        | some ds => ds.all (fun q => allNodesF p fuel q.2)
        | Option.none => true)
  | _ + 1, _ => true

/-- `allNodesF` at adequate fuel. -/
def allNodes (p : List (String × Json) → Bool) (j : Json) : Bool :=
  allNodesF p (jsize j) j

/-- Local check, strict-mode claim, `additionalProperties` half: an
object-typed node carries `additionalProperties: false`. -/
def apLocalOk (kvs : List (String × Json)) : Bool :=
  if isTypeObject kvs then
    match getKey kvs "additionalProperties" with
    | some (.bool false) => true
    | _ => false
  else true

/-- Local check, strict-mode claim, `required` half: every property key of an
object-typed node appears in its `required` list. -/
def reqLocalOk (kvs : List (String × Json)) : Bool :=
  if isTypeObject kvs then
    match getObj kvs "properties" with
    | some props =>
      match getKey kvs "required" with
      | some (.arr l) =>
        props.all (fun p => l.any (fun x =>
          match x with
          | .str s => s == p.1
          | _ => false))
      | _ => props.isEmpty
    | Option.none => true
  else true

/-- Local precondition for the `additionalProperties` half: an object-typed
node that already carries an `additionalProperties` key carries it with value
`false` (the transform never overwrites an existing value). -/
def apPreLocal (kvs : List (String × Json)) : Bool :=
  if isTypeObject kvs && hasKey kvs "additionalProperties" then
    match getKey kvs "additionalProperties" with
    | some (.bool false) => true
    | _ => false
  else true

/-- Fuel-indexed check that no node reachable through dict values only (the
nodes `_recursive_purge_titles` visits) has both a `title` and a `type` key. -/
def noTitleTypeDictF : Nat → Json → Bool
  | 0, _ => false
  | fuel + 1, .obj kvs =>
    !(hasKey kvs "title" && hasKey kvs "type")
    && kvs.all (fun p => noTitleTypeDictF fuel p.2)
  | _ + 1, _ => true

/-- `noTitleTypeDictF` at adequate fuel. -/
def noTitleTypeDict (j : Json) : Bool := noTitleTypeDictF (jsize j) j

/-- Fuel-indexed check whether ANY node of the tree — including nodes inside
array values such as `anyOf`/`allOf` branches — has both a `title` and a
`type` key (the configuration the lenient-mode claim says never survives). -/
def hasTitleTypeAnyF : Nat → Json → Bool
  | 0, _ => false
  | fuel + 1, .obj kvs =>
    (hasKey kvs "title" && hasKey kvs "type")
    || kvs.any (fun p => hasTitleTypeAnyF fuel p.2)
  | fuel + 1, .arr xs => xs.any (hasTitleTypeAnyF fuel)
  | _ + 1, _ => false

/-- `hasTitleTypeAnyF` at adequate fuel. -/
def hasTitleTypeAny (j : Json) : Bool := hasTitleTypeAnyF (jsize j) j

/-! ### `processor.py`

The external pieces the processor relies on are embedded as follows.

* Python runtime values that flow through a dispatched call (arguments after
  validation, the callable's return value, pydantic model instances) are
  `PyValue`; a pydantic `BaseModel` instance is `PyValue.model`.
* Type annotations of callable parameters are `Annot`; `Optional[X]` is
  `Annot.union [X, Annot.nonety]`, matching `get_origin`/`get_args`.
* Modelled from the spec: the external typed-record validation engine
  (pydantic's `model(**tool_args)`) is `validateModel` — given the field
  specification it returns a validated instance or a structured validation
  failure; a string where an array is declared is a validation failure (the
  spec relies on this for the list-repair behaviour).
* A registered callable is `RegisteredTool`: its derived name (`__name__`,
  or the wrapped schema's name for an `LLMFunction`), its parameter field
  specification (the `parameters_basemodel_from_function` output), and its
  behaviour as a function from validated keyword arguments to either a value
  or a raised exception.
-/

/-- Python runtime values flowing through a dispatched call. -/
inductive PyValue where
  | noneV : PyValue
  | bool : Bool → PyValue
  | int : Int → PyValue
  | str : String → PyValue
  | list : List PyValue → PyValue
  | model : String → List (String × PyValue) → PyValue

/-- A soft-error entry: the source appends both exceptions and plain strings
to `soft_errors` (line 110 appends a string). -/
inductive SoftErr where
  | exc : PyError → SoftErr
  | msg : String → SoftErr
deriving DecidableEq

/-- Parameter type annotations, as `_is_list_type` inspects them. -/
inductive Annot where
  | str : Annot
  | int : Annot
  | bool : Annot
  | nonety : Annot
  | list : Annot → Annot
  | union : List Annot → Annot

mutual

/-- Size of an annotation (fuel bound for the validator). -/
def asize : Annot → Nat
  | .list t => 1 + asize t
  | .union ts => 1 + asizeList ts
  | _ => 1

/-- Size of a list of annotations. -/
def asizeList : List Annot → Nat
  | [] => 1
  | t :: rest => 1 + asize t + asizeList rest

end

mutual

/-- `_is_list_type`: the annotation is a bare `list`, or a `Union`/`Optional`
with a list-compatible member. -/
def is_list_type : Annot → Bool
  | .list _ => true
  | .union ts => is_list_type_any ts
  | _ => false

/-- `any(_is_list_type(arg) for arg in args)`. -/
def is_list_type_any : List Annot → Bool
  | [] => false
  | a :: rest => is_list_type a || is_list_type_any rest

end

/-- Try validators in order, keeping the first success. -/
def tryAnnots (f : Annot → Except PyError PyValue) : List Annot → Except PyError PyValue
  | [] => .error (.validationError "no union member matched")
  | t :: rest =>
    match f t with
    | .ok w => .ok w
    | .error _ => tryAnnots f rest

/-- Modelled from the spec: the external validation engine's check of one
declared type against one decoded JSON value ("given a mapping of field name
→ (declared type, default, description), returns a validated instance or a
structured validation failure"). A string is not accepted where an array is
declared. Fuel-indexed; the annotation's size is an adequate fuel. -/
def validateValueF : Nat → Annot → Json → Except PyError PyValue
  | 0, _, _ => .error (.validationError "out of fuel")
  | fuel + 1, a, v =>
    match a, v with
    | .str, .str s => .ok (.str s)
    | .int, .num n => .ok (.int n)
    | .bool, .bool b => .ok (.bool b)
    | .nonety, .null => .ok .noneV
    | .list t, .arr xs => (mapME (validateValueF fuel t) xs).map PyValue.list
    | .union ts, w => tryAnnots (fun t => validateValueF fuel t w) ts
    | _, _ => .error (.validationError "input type mismatch")

/-- `validateValueF` at adequate fuel. -/
def validateValue (a : Annot) (v : Json) : Except PyError PyValue :=
  validateValueF (asize a) a v

/-- One field specification: name, annotation, optional default. -/
def FieldSpec := String × Annot × Option PyValue

/-- Modelled from the spec: the external validation engine applied to a whole
argument mapping (`model(**tool_args)` on the parameter model). Declared
fields are validated in declaration order; a missing field without a default
is a validation failure; extra keys are ignored (pydantic's default). -/
def validateModel (fields : List FieldSpec) (kvs : List (String × Json)) :
    Except PyError (List (String × PyValue)) :=
  mapME (fun f =>
    match getKey kvs f.1 with
    | some v => (validateValue f.2.1 v).map (fun w => (f.1, w))
    | Option.none =>
      match f.2.2 with
      | some d => .ok (f.1, d)
      | Option.none => .error (.validationError ("Field required: " ++ f.1))) fields

/-- `split_string_to_list` (lines 95-99): try `json.loads`, fall back to
splitting on commas and stripping each piece. -/
def split_string_to_list (s : String) : Json :=
  match json_loads s with
  | .ok v => v
  | .error _ => .arr ((pySplit s.data ',').map (fun cs => .str (pyStrip (String.mk cs))))

/-- Line 108's guard: the field's annotation is list-compatible and the
supplied value for it is a string; returns that string. -/
def strListValue (f : FieldSpec) (kvs : List (String × Json)) : Option String :=
  if is_list_type f.2.1 then
    match getKey kvs f.1 with
    | some (.str s) => some s
    | _ => Option.none
  else Option.none

/-- Lines 106-110: for every declared field with a list-compatible annotation
whose supplied value is a string, replace the value by
`split_string_to_list` of it and record the soft note. The argument dict is
updated in place (`setKey`), exactly like the source's mutation. -/
def fixListArgs : List FieldSpec → List (String × Json) → List (String × Json) × List SoftErr
  | [], kvs => (kvs, [])
  | f :: rest, kvs =>
    match strListValue f kvs with
    | some s =>
      let r2 := fixListArgs rest (setKey kvs f.1 (split_string_to_list s))
      (r2.1, .msg ("Fixed JSON decode error for field " ++ f.1) :: r2.2)
    | Option.none => fixListArgs rest kvs

/-- A registered callable (bare callable or `LLMFunction`): derived name,
parameter field specification, and behaviour (`Except.error` = the callable
raised). -/
structure RegisteredTool where
  name : String
  params : List FieldSpec
  impl : List (String × PyValue) → Except PyError PyValue

/-- `get_name` (lines 150-168): the derived or declared name, lower-cased
when case-insensitive mode is on. -/
def get_name (f : RegisteredTool) (case_insensitive : Bool) : String :=
  if case_insensitive then lowerS f.name else f.name

/-- `_process_unpacked` (lines 101-114). Returns the (possibly mutated)
argument value alongside the outcome, because the source mutates
`tool_args` in place and the caller stores that mutated dict even when
validation or the call fails. Non-mapping decoded arguments raise
(`AttributeError`/`TypeError` in Python, collapsed to one error here); the
caller catches everything this returns. -/
def _process_unpacked (f : RegisteredTool) (tool_args : Json) (fix_json_args : Bool) :
    Json × Except PyError (PyValue × List SoftErr) :=
  match tool_args with
  | .obj kvs =>
    let fixed := if fix_json_args then fixListArgs f.params kvs else (kvs, [])
    (.obj fixed.1,
      match validateModel f.params fixed.1 with
      | .error e => .error e
      | .ok inst =>
        match f.impl inst with
        | .error e => .error e
        | .ok out => .ok (out, fixed.2))
  | other => (other, .error (.typeError "arguments do not unpack into a mapping"))

/-- The prefix class: its `__name__` and its declared fields
(`__annotations__` plus the validation data). -/
structure PrefixClass where
  name : String
  fields : List FieldSpec

/-- `_extract_prefix_unpacked` (lines 121-123): pop every key of the decoded
arguments that is a declared prefix field (the pops happen before validation,
so the remaining dict survives even when validation then fails) and validate
the popped mapping as a prefix instance. -/
def extract_prefix_unpacked (kvs : List (String × Json)) (pc : PrefixClass) :
    List (String × Json) × Except PyError PyValue :=
  let isPf := fun (k : String) => pc.fields.any (fun f => f.1 == k)
  let prefixArgs := kvs.filter (fun p => isPf p.1)
  let remaining := kvs.filter (fun p => !isPf p.1)
  (remaining, (validateModel pc.fields prefixArgs).map (fun flds => PyValue.model pc.name flds))

/-- Outcome of the resolution loop (lines 69-81). -/
structure DispatchOut where
  tool : Option RegisteredTool
  arguments : Json
  output : PyValue
  error : Option PyError
  stack_trace : Option String
  softs : List SoftErr

/-- Lines 69-81: linear scan of the registered callables in order; the first
name match is invoked (errors from validation or the callable are caught);
the `for`/`else` records `NoMatchingTool` when nothing matched. -/
def dispatchLoop (fns : List RegisteredTool) (tool_name : String) (tool_args : Json)
    (fix_json_args : Bool) (case_insensitive : Bool) : DispatchOut :=
  match fns with
  | [] =>
    { tool := Option.none, arguments := tool_args, output := .noneV,
      error := some (.noMatchingTool ("Function " ++ tool_name ++ " not found")),
      stack_trace := Option.none, softs := [] }
  | f :: rest =>
    if get_name f case_insensitive = tool_name then
      match (_process_unpacked f tool_args fix_json_args).2 with
      | .ok (out, ns) =>
        { tool := some f, arguments := (_process_unpacked f tool_args fix_json_args).1,
          output := out, error := Option.none, stack_trace := Option.none, softs := ns }
      | .error e =>
        { tool := some f, arguments := (_process_unpacked f tool_args fix_json_args).1,
          output := .noneV, error := some e, stack_trace := some "<stack trace>",
          softs := [] }
    else dispatchLoop rest tool_name tool_args fix_json_args case_insensitive

/-- One incoming call's `function` member. -/
structure FunctionCall where
  name : String
  arguments : String

/-- One incoming tool call. -/
structure ToolCall where
  id : String
  function : FunctionCall

/-- `ToolResult` (lines 14-24). `prefix_inst` embeds the source's `prefix`
field; `stack_trace`, when set, is a placeholder for the formatted Python
traceback. -/
structure ToolResult where
  tool_call_id : String
  name : String
  output : PyValue := .noneV
  arguments : Option Json := Option.none
  error : Option PyError := Option.none
  stack_trace : Option String := Option.none
  soft_errors : List SoftErr := []
  prefix_inst : Option PyValue := Option.none
  tool : Option RegisteredTool := Option.none

/-- Lines 58-93 when a prefix class is configured and the decoded arguments
are a mapping: prefix extraction (soft on validation failure), the
prefix-name check and name slicing, then the resolution loop and assembly. -/
def processWithPrefix (tc : ToolCall) (fns : List RegisteredTool) (pc : PrefixClass)
    (fix_json_args : Bool) (case_insensitive : Bool) (kvs : List (String × Json))
    (softs0 : List SoftErr) : ToolResult :=
  let ex := extract_prefix_unpacked kvs pc
  let prefixInst := match ex.2 with
    | .ok p => some p
    | .error _ => Option.none
  let softs1 := match ex.2 with
    | .ok _ => softs0
    | .error e => softs0 ++ [.exc e]
  let pn := if case_insensitive then lowerS pc.name else pc.name
  let nameAndSofts :=
    if startsWithS tc.function.name pn then
      (dropS tc.function.name (pn.data.length + 5), softs1)
    else
      (tc.function.name,
       softs1 ++ [.exc (.noMatchingTool ("Function " ++ tc.function.name ++
         " does not match prefix " ++ pn))])
  let d := dispatchLoop fns nameAndSofts.1 (.obj ex.1) fix_json_args case_insensitive
  { tool_call_id := tc.id, name := nameAndSofts.1, output := d.output,
    arguments := some d.arguments, error := d.error, stack_trace := d.stack_trace,
    soft_errors := nameAndSofts.2 ++ d.softs, prefix_inst := prefixInst,
    tool := d.tool }

/-- The continuation of `process_tool_call` after the arguments decoded
successfully (lines 58-93): prefix extraction and name handling, then the
resolution loop, then assembly of the `ToolResult`. -/
def processAfterDecode (tc : ToolCall) (fns : List RegisteredTool)
    (prefix_class : Option PrefixClass) (fix_json_args : Bool) (case_insensitive : Bool)
    (tool_args : Json) (softs0 : List SoftErr) : Except PyError ToolResult :=
  match prefix_class with
  | Option.none =>
    let d := dispatchLoop fns tc.function.name tool_args fix_json_args case_insensitive
    .ok { tool_call_id := tc.id, name := tc.function.name, output := d.output,
          arguments := some d.arguments, error := d.error, stack_trace := d.stack_trace,
          soft_errors := softs0 ++ d.softs, prefix_inst := Option.none, tool := d.tool }
  | some pc =>
    match tool_args with
    | .obj kvs => .ok (processWithPrefix tc fns pc fix_json_args case_insensitive kvs softs0)
    | _ => .error (.typeError "prefix extraction iterates the keys of a mapping")

/-- `process_tool_call` (lines 37-93). `Except.error` models an exception
escaping to the caller — which happens exactly when repair is enabled and
the repaired argument string still fails to parse (line 53), or when a
prefix class is configured and the decoded arguments are not a mapping
(line 122). -/
def process_tool_call (tc : ToolCall) (fns : List RegisteredTool)
    (prefix_class : Option PrefixClass) (fix_json_args : Bool)
    (case_insensitive : Bool) : Except PyError ToolResult :=
  match json_loads tc.function.arguments with
  | .ok v => processAfterDecode tc fns prefix_class fix_json_args case_insensitive v []
  | .error e =>
    if fix_json_args then
      match json_loads (fixArgs tc.function.arguments) with
      | .ok v =>
        processAfterDecode tc fns prefix_class fix_json_args case_insensitive v [.exc e]
      | .error e2 => .error e2
    else
      .ok { tool_call_id := tc.id, name := tc.function.name, error := some e,
            stack_trace := some "<stack trace>" }

/-- `str(e)` of an embedded exception: the carried message. -/
def pyStrError : PyError → String
  | .jsonDecodeError m => m
  | .noMatchingTool m => m
  | .validationError m => m
  | .typeError m => m
  | .keyError m => m
  | .userError m => m

/-- Python truthiness of a runtime value (`if self.output`); a pydantic model
instance is truthy. -/
def pyTruthy : PyValue → Bool
  | .noneV => false
  | .bool b => b
  | .int n => n ≠ 0
  | .str s => !s.data.isEmpty
  | .list xs => !xs.isEmpty
  | .model _ _ => true

/-- `str(self.output)` as far as the claims exercise it (`None`, strings,
numbers, booleans render; containers get a placeholder rendering). -/
def pyStr : PyValue → String
  | .noneV => "None"
  | .bool b => if b then "True" else "False"
  | .int n => toString n
  | .str s => s
  | .list _ => "<list>"
  | .model n _ => "<" ++ n ++ " instance>"

/-- The transport-shaped reply of `ToolResult.to_message`. -/
structure ToolMessage where
  role : String
  tool_call_id : String
  name : String
  content : String
deriving DecidableEq

/-- `ToolResult.to_message` (lines 26-35): content from error/output
truthiness, then the unconditional override to the confirmation phrase when
the output is a `BaseModel` instance. -/
def ToolResult.to_message (r : ToolResult) : ToolMessage :=
  let content := match r.error with
    | some e => pyStrError e
    | Option.none => if pyTruthy r.output then pyStr r.output else ""
  let content := match r.output with
    | .model _ _ => r.name ++ " created"
    | _ => content
  { role := "tool", tool_call_id := r.tool_call_id, name := r.name, content := content }

/-! ### Concrete fixtures (used by witnesses and counterexamples) -/

/-- A registered callable `def greet(name: str)` returning a greeting. -/
def greetTool : RegisteredTool :=
  { name := "greet",
    params := [("name", Annot.str, Option.none)],
    impl := fun args =>
      match args with
      | [("name", .str s)] => .ok (.str ("Hello " ++ s))
      | _ => .error (.userError "unexpected arguments") }

/-- A registered pydantic model `class User(BaseModel): name: str; email: str`
used as a callable (calling it constructs an instance). -/
def userTool : RegisteredTool :=
  { name := "User",
    params := [("name", Annot.str, Option.none), ("email", Annot.str, Option.none)],
    impl := fun args => .ok (.model "User" args) }

/-- A registered callable `def print_names(names: list[str])` echoing its
argument. -/
def namesTool : RegisteredTool :=
  { name := "print_names",
    params := [("names", Annot.list Annot.str, Option.none)],
    impl := fun args =>
      match args with
      | [("names", v)] => .ok v
      | _ => .error (.userError "unexpected arguments") }

/-- The prefix class `class Reflection(BaseModel): relevancy: str`. -/
def reflectionPC : PrefixClass :=
  { name := "Reflection", fields := [("relevancy", Annot.str, Option.none)] }

/-- The trailing-comma argument payload of the spec's repair scenario. -/
def trailingCommaArgs : String := "\x7b\"name\": \"John\", \x7d"

/-! ### Helper lemmas about the resolution loop -/

theorem dispatchLoop_tool_find (fns : List RegisteredTool) (tool_name : String)
    (tool_args : Json) (fix ci : Bool) :
    (dispatchLoop fns tool_name tool_args fix ci).tool
      = fns.find? (fun f => get_name f ci == tool_name) := by
  induction fns with
  | nil => simp [dispatchLoop, List.find?]
  | cons f rest ih =>
    by_cases h : get_name f ci = tool_name
    · simp only [dispatchLoop, if_pos h, List.find?]
      rw [show (get_name f ci == tool_name) = true by simp [h]]
      cases h2 : (_process_unpacked f tool_args fix).2 with
      | ok p => obtain ⟨out, ns⟩ := p; simp
      | error e => simp
    · simp only [dispatchLoop, if_neg h, List.find?]
      rw [show (get_name f ci == tool_name) = false by simp [h]]
      exact ih

theorem dispatchLoop_nomatch (fns : List RegisteredTool) (tool_name : String)
    (tool_args : Json) (fix ci : Bool)
    (h : fns.find? (fun f => get_name f ci == tool_name) = Option.none) :
    (dispatchLoop fns tool_name tool_args fix ci).error
      = some (.noMatchingTool ("Function " ++ tool_name ++ " not found")) := by
  induction fns with
  | nil => simp [dispatchLoop]
  | cons f rest ih =>
    rw [List.find?] at h
    by_cases hf : get_name f ci = tool_name
    · rw [show (get_name f ci == tool_name) = true by simp [hf]] at h
      simp at h
    · rw [show (get_name f ci == tool_name) = false by simp [hf]] at h
      simp only [dispatchLoop, if_neg hf]
      exact ih h

theorem dispatchLoop_error_output (fns : List RegisteredTool) (tool_name : String)
    (tool_args : Json) (fix ci : Bool)
    (h : (dispatchLoop fns tool_name tool_args fix ci).error.isSome = true) :
    (dispatchLoop fns tool_name tool_args fix ci).output = .noneV := by
  induction fns with
  | nil => simp [dispatchLoop]
  | cons f rest ih =>
    by_cases hf : get_name f ci = tool_name
    · simp only [dispatchLoop, if_pos hf] at h ⊢
      cases h2 : (_process_unpacked f tool_args fix).2 with
      | ok p =>
        obtain ⟨out, ns⟩ := p
        rw [h2] at h
        simp at h
      | error e => rfl
    · simp only [dispatchLoop, if_neg hf] at h ⊢
      exact ih h

/-! ### Inversion lemmas for `process_tool_call` -/

theorem process_ok_parse {tc : ToolCall} {v : Json} (fns : List RegisteredTool)
    (pc : Option PrefixClass) (fix ci : Bool)
    (h : json_loads tc.function.arguments = .ok v) :
    process_tool_call tc fns pc fix ci = processAfterDecode tc fns pc fix ci v [] := by
  unfold process_tool_call
  rw [h]

theorem process_err_nofix {tc : ToolCall} {e : PyError} (fns : List RegisteredTool)
    (pc : Option PrefixClass) (ci : Bool)
    (h : json_loads tc.function.arguments = .error e) :
    process_tool_call tc fns pc false ci
      = .ok { tool_call_id := tc.id, name := tc.function.name, error := some e,
              stack_trace := some "<stack trace>" } := by
  unfold process_tool_call
  rw [h]
  simp

theorem process_err_fix_ok {tc : ToolCall} {e : PyError} {v : Json}
    (fns : List RegisteredTool) (pc : Option PrefixClass) (ci : Bool)
    (h1 : json_loads tc.function.arguments = .error e)
    (h2 : json_loads (fixArgs tc.function.arguments) = .ok v) :
    process_tool_call tc fns pc true ci
      = processAfterDecode tc fns pc true ci v [.exc e] := by
  unfold process_tool_call
  rw [h1]
  simp only [if_true]
  rw [h2]

theorem process_err_fix_err {tc : ToolCall} {e e2 : PyError}
    (fns : List RegisteredTool) (pc : Option PrefixClass) (ci : Bool)
    (h1 : json_loads tc.function.arguments = .error e)
    (h2 : json_loads (fixArgs tc.function.arguments) = .error e2) :
    process_tool_call tc fns pc true ci = .error e2 := by
  unfold process_tool_call
  rw [h1]
  simp only [if_true]
  rw [h2]

theorem processAfterDecode_none (tc : ToolCall) (fns : List RegisteredTool)
    (fix ci : Bool) (v : Json) (s0 : List SoftErr) :
    processAfterDecode tc fns Option.none fix ci v s0
      = .ok { tool_call_id := tc.id, name := tc.function.name,
              output := (dispatchLoop fns tc.function.name v fix ci).output,
              arguments := some (dispatchLoop fns tc.function.name v fix ci).arguments,
              error := (dispatchLoop fns tc.function.name v fix ci).error,
              stack_trace := (dispatchLoop fns tc.function.name v fix ci).stack_trace,
              soft_errors := s0 ++ (dispatchLoop fns tc.function.name v fix ci).softs,
              prefix_inst := Option.none,
              tool := (dispatchLoop fns tc.function.name v fix ci).tool } := rfl

/-! ### Claim C1 -/

/-- Claim C1, counterexample. The claim says `process_tool_call` never raises
an exception to its caller for any incoming call, registered list, and both
settings of repair and case-insensitivity. With repair enabled and the
argument payload `{"a": }`, the first parse fails, the narrow comma repair
leaves the string unchanged, and the second `json.loads` at line 53 of
`processor.py` raises `JSONDecodeError` out of `process_tool_call`
(`Except.error` in this embedding): no `ToolResult` is returned. -/
theorem C1_counterexample :
    process_tool_call ⟨"1", ⟨"f", "\x7b\"a\": \x7d"⟩⟩ [] Option.none true false
      = .error (.jsonDecodeError "Expecting value") := rfl

/-- Claim C1, amended: `process_tool_call` (without a prefix class, which the
claim does not mention) returns exactly one `ToolResult` — JSON decode
failures with repair disabled, unmatched names, argument-validation
rejections, and exceptions from the invoked callable are all captured in the
returned record — EXCEPT when repair is enabled and the repaired argument
string still fails to parse, in which case the second `JSONDecodeError`
propagates to the caller. -/
theorem C1_never_raises_amended (tc : ToolCall) (fns : List RegisteredTool)
    (fix ci : Bool) :
    (∃ r, process_tool_call tc fns Option.none fix ci = .ok r)
    ∨ (fix = true
        ∧ (∃ e, json_loads tc.function.arguments = .error e)
        ∧ (∃ e2, json_loads (fixArgs tc.function.arguments) = .error e2)) := by
  cases h1 : json_loads tc.function.arguments with
  | ok v =>
    exact .inl ⟨_, by rw [process_ok_parse fns Option.none fix ci h1,
      processAfterDecode_none]⟩
  | error e =>
    cases fix with
    | false => exact .inl ⟨_, process_err_nofix fns Option.none ci h1⟩
    | true =>
      cases h2 : json_loads (fixArgs tc.function.arguments) with
      | ok v =>
        exact .inl ⟨_, by rw [process_err_fix_ok fns Option.none ci h1 h2,
          processAfterDecode_none]⟩
      | error e2 => exact .inr ⟨rfl, ⟨e, rfl⟩, ⟨e2, rfl⟩⟩

/-! ### Claim C4 -/

/-- Claim C4, confirmed. For a call whose `rawArguments` fails to parse:
with repair disabled, `process_tool_call` returns immediately with a hard
JSON-decode error and performs no further processing (no arguments stored,
no soft errors, no tool matched, no output); with repair enabled, the
original parse error is recorded as a soft error, `", }"` and `",}"` are
replaced by `"}"` (`fixArgs`), the result is re-parsed and dispatch proceeds
on success with the soft error kept; a second parse failure is not recovered
(it propagates). Concretely, arguments ending in a trailing comma before `}`
dispatch successfully with a soft error recorded, and the same input with
repair disabled yields a hard JSON-decode error. -/
theorem C4_json_repair (tc : ToolCall) (fns : List RegisteredTool) (ci : Bool)
    (e : PyError) (h : json_loads tc.function.arguments = .error e) :
    (process_tool_call tc fns Option.none false ci
        = .ok { tool_call_id := tc.id, name := tc.function.name, error := some e,
                stack_trace := some "<stack trace>" })
    ∧ (∀ e2, json_loads (fixArgs tc.function.arguments) = .error e2 →
        process_tool_call tc fns Option.none true ci = .error e2)
    ∧ (∀ v, json_loads (fixArgs tc.function.arguments) = .ok v →
        process_tool_call tc fns Option.none true ci
          = .ok { tool_call_id := tc.id, name := tc.function.name,
                  output := (dispatchLoop fns tc.function.name v true ci).output,
                  arguments := some (dispatchLoop fns tc.function.name v true ci).arguments,
                  error := (dispatchLoop fns tc.function.name v true ci).error,
                  stack_trace := (dispatchLoop fns tc.function.name v true ci).stack_trace,
                  soft_errors := .exc e :: (dispatchLoop fns tc.function.name v true ci).softs,
                  prefix_inst := Option.none,
                  tool := (dispatchLoop fns tc.function.name v true ci).tool })
    ∧ ((process_tool_call ⟨"1", ⟨"greet", trailingCommaArgs⟩⟩ [greetTool]
          Option.none true false).toOption.map
            (fun r => (r.error.isNone, r.soft_errors, pyStr r.output))
        = some (true,
            [.exc (.jsonDecodeError "Expecting property name enclosed in double quotes")],
            "Hello John"))
    ∧ ((process_tool_call ⟨"1", ⟨"greet", trailingCommaArgs⟩⟩ [greetTool]
          Option.none false false).toOption.map
            (fun r => (r.error, r.arguments.isNone, r.soft_errors.isEmpty))
        = some (some (.jsonDecodeError "Expecting property name enclosed in double quotes"),
            true, true)) := by
  refine ⟨process_err_nofix fns Option.none ci h, ?_, ?_, rfl, rfl⟩
  · intro e2 h2
    exact process_err_fix_err fns Option.none ci h h2
  · intro v h2
    rw [process_err_fix_ok fns Option.none ci h h2, processAfterDecode_none]
    simp

/-- Witness for `C4_json_repair` at the trailing-comma payload. -/
theorem C4_json_repair_witness :
    json_loads trailingCommaArgs
        = .error (.jsonDecodeError "Expecting property name enclosed in double quotes")
    ∧ process_tool_call ⟨"9", ⟨"greet", trailingCommaArgs⟩⟩ [greetTool] Option.none false false
        = .ok { tool_call_id := "9", name := "greet",
                error := some (.jsonDecodeError "Expecting property name enclosed in double quotes"),
                stack_trace := some "<stack trace>" } :=
  ⟨rfl, (C4_json_repair ⟨"9", ⟨"greet", trailingCommaArgs⟩⟩ [greetTool] false
    (.jsonDecodeError "Expecting property name enclosed in double quotes") rfl).1⟩

/-! ### String facts used by the prefix-name claims -/

theorem data_append (s t : String) : (s ++ t).data = s.data ++ t.data := by
  cases s
  cases t
  rfl

theorem mk_data (s : String) : String.mk s.data = s := by
  cases s
  rfl

theorem isPrefixOf_append (a b : List Char) : a.isPrefixOf (a ++ b) = true := by
  induction a with
  | nil => simp [List.isPrefixOf]
  | cons c rest ih => simp [List.isPrefixOf, ih]

theorem drop_append_length (a b : List Char) (n : Nat) :
    (a ++ b).drop (a.length + n) = b.drop n := by
  induction a with
  | nil => simp
  | cons c rest ih =>
    have : (c :: rest).length + n = (rest.length + n) + 1 := by
      simp [List.length_cons]
      omega
    rw [this]
    simp only [List.cons_append, List.drop_succ_cons]
    exact ih

/-! ### Claim C7 -/

/-- Claim C7, counterexample. When the call name starts with the prefix name
but does not carry the `"{prefixName}_and_"` substring at all — here the name
is exactly `"Reflection"` — the claim says the leading `"Reflection_and_"`
substring is stripped (which would leave the name unchanged, as there is no
such leading substring); the code instead slices off
`len("Reflection_and_") = 15` characters (line 67), leaving the empty
string. -/
theorem C7_counterexample :
    ((process_tool_call ⟨"1", ⟨"Reflection", "\x7b\"relevancy\": \"high\"\x7d"⟩⟩
        [greetTool] (some reflectionPC) true false).toOption.map (fun r => r.name)
      = some "")
    ∧ startsWithS "Reflection" "Reflection" = true
    ∧ startsWithS "Reflection" ("Reflection" ++ "_and_") = false
    ∧ ("" : String) ≠ "Reflection" := by
  refine ⟨rfl, rfl, rfl, by decide⟩

/-- Claim C7, amended. With a prefix class configured and the arguments
decoding to a mapping: if the call name does not start with the (possibly
case-folded) prefix name, a soft `NoMatchingTool` note is recorded, the name
is left unmodified, and processing continues; if it does start with it, the
first `len(prefixName) + len("_and_")` characters are sliced off — which
equals stripping the leading `"{prefixName}_and_"` substring exactly when the
name actually has that form (third conjunct), and otherwise over-slices
(counterexample). -/
theorem C7_prefix_handling (tc : ToolCall) (fns : List RegisteredTool)
    (pc : PrefixClass) (fix ci : Bool) (kvs : List (String × Json))
    (h : json_loads tc.function.arguments = .ok (.obj kvs)) :
    (startsWithS tc.function.name (if ci then lowerS pc.name else pc.name) = false →
      ∃ r, process_tool_call tc fns (some pc) fix ci = .ok r
        ∧ r.name = tc.function.name
        ∧ SoftErr.exc (.noMatchingTool ("Function " ++ tc.function.name ++
            " does not match prefix " ++ (if ci then lowerS pc.name else pc.name)))
            ∈ r.soft_errors)
    ∧ (startsWithS tc.function.name (if ci then lowerS pc.name else pc.name) = true →
      ∃ r, process_tool_call tc fns (some pc) fix ci = .ok r
        ∧ r.name = dropS tc.function.name
            ((if ci then lowerS pc.name else pc.name).data.length + 5))
    ∧ (∀ suffix, tc.function.name
          = (if ci then lowerS pc.name else pc.name) ++ "_and_" ++ suffix →
        startsWithS tc.function.name (if ci then lowerS pc.name else pc.name) = true
        ∧ dropS tc.function.name
            ((if ci then lowerS pc.name else pc.name).data.length + 5) = suffix) := by
  have hp : process_tool_call tc fns (some pc) fix ci
      = .ok (processWithPrefix tc fns pc fix ci kvs []) := by
    rw [process_ok_parse fns (some pc) fix ci h]
    rfl
  refine ⟨?_, ?_, ?_⟩
  · intro hs
    refine ⟨_, hp, ?_, ?_⟩
    · simp [processWithPrefix, hs]
    · simp [processWithPrefix, hs]
  · intro hs
    refine ⟨_, hp, ?_⟩
    simp [processWithPrefix, hs]
  · intro suffix hsuf
    have hdata : tc.function.name.data
        = (if ci then lowerS pc.name else pc.name).data ++ ("_and_".data ++ suffix.data) := by
      rw [hsuf, data_append, data_append, List.append_assoc]
    constructor
    · rw [startsWithS, hdata]
      exact isPrefixOf_append _ _
    · rw [dropS, hdata, drop_append_length _ _ 5]
      have : ("_and_".data ++ suffix.data).drop 5 = suffix.data := by
        have h5 : ("_and_" : String).data.length = 5 := rfl
        have := drop_append_length ("_and_" : String).data suffix.data 0
        rw [h5] at this
        simp only [List.drop_zero] at this
        exact this
      rw [this, mk_data]

/-! ### Claim C8 -/

/-- Argument payload used in the case-insensitive resolution scenario. -/
def userArgs : String := "\x7b\"name\": \"John\", \"email\": \"j@e.com\"\x7d"

/-- Claim C8, confirmed. Target resolution is a linear scan of the
registered callables in registration order comparing each derived name
(lower-cased when case-insensitive) to the (possibly prefix-stripped) call
name, taking the first match (`List.find?`); registering `class User` and
calling `"user"` resolves under case-insensitive matching; with no match,
the result carries a hard `NoMatchingTool` error naming the unresolved name
and its `name` field holds the requested name. -/
theorem C8_resolution (tc : ToolCall) (fns : List RegisteredTool) (fix ci : Bool)
    (v : Json) (h : json_loads tc.function.arguments = .ok v) :
    (∃ r, process_tool_call tc fns Option.none fix ci = .ok r
      ∧ r.name = tc.function.name
      ∧ r.tool = fns.find? (fun f => get_name f ci == tc.function.name)
      ∧ (fns.find? (fun f => get_name f ci == tc.function.name) = Option.none →
          r.error = some (.noMatchingTool
            ("Function " ++ tc.function.name ++ " not found"))))
    ∧ ((process_tool_call ⟨"1", ⟨"user", userArgs⟩⟩ [userTool]
          Option.none true true).toOption.map
        (fun r => (r.error.isNone, r.tool.isSome,
          match r.output with | .model n _ => n | _ => ""))
      = some (true, true, "User"))
    ∧ ((process_tool_call ⟨"1", ⟨"nosuch", "\x7b\x7d"⟩⟩ [userTool, greetTool]
          Option.none true false).toOption.map
        (fun r => (r.error, r.name, r.tool.isSome))
      = some (some (.noMatchingTool "Function nosuch not found"), "nosuch", false)) := by
  refine ⟨?_, rfl, rfl⟩
  refine ⟨_, by rw [process_ok_parse fns Option.none fix ci h, processAfterDecode_none],
    rfl, ?_, ?_⟩
  · exact dispatchLoop_tool_find fns tc.function.name v fix ci
  · intro hn
    exact dispatchLoop_nomatch fns tc.function.name v fix ci hn

/-- Witness for `C8_resolution`: the case-insensitive `User`/`"user"` call. -/
theorem C8_resolution_witness :
    ∃ r, process_tool_call ⟨"1", ⟨"user", userArgs⟩⟩ [userTool] Option.none true true
        = .ok r
      ∧ r.name = "user"
      ∧ r.tool = [userTool].find? (fun f => get_name f true == "user") := by
  obtain ⟨⟨r, h1, h2, h3, _⟩, _, _⟩ :=
    C8_resolution ⟨"1", ⟨"user", userArgs⟩⟩ [userTool] true true
      (.obj [("name", .str "John"), ("email", .str "j@e.com")]) rfl
  exact ⟨r, h1, h2, h3⟩

/-! ### Claim C9 -/

/-- Claim C9, counterexample. The claim says the reply content is the hard
error's text whenever any error occurred, with the `"<name> created"`
confirmation never applying in the hard-error case. But line 28's
`isinstance` override runs after the error/output selection, so a
`ToolResult` carrying both a hard error and a model-instance output renders
the confirmation phrase, not the error text. -/
theorem C9_counterexample :
    (ToolResult.to_message
        { tool_call_id := "1", name := "User",
          output := .model "User" [("name", .str "J")],
          error := some (.userError "boom") }).content = "User created"
    ∧ pyStrError (.userError "boom") = "boom"
    ∧ ("User created" : String) ≠ "boom" := by
  refine ⟨rfl, rfl, by decide⟩

/-- Claim C9, amended. The reply content is the confirmation phrase
`"<name> created"` whenever the output is a typed-record instance — taking
precedence even over the hard-error text; otherwise it is the hard-error
text when an error occurred, else a rendering of a truthy output, else the
empty string. For `ToolResult`s produced by `process_tool_call` the claimed
precedence does hold, because a hard error forces the output to stay `None`
(second conjunct); a callable returning no value yields empty content
(third conjunct). -/
theorem C9_to_message_amended :
    (∀ r : ToolResult, (ToolResult.to_message r).content
        = (match r.output with
           | .model _ _ => r.name ++ " created"
           | _ => match r.error with
             | some e => pyStrError e
             | Option.none => if pyTruthy r.output then pyStr r.output else ""))
    ∧ (∀ (tc : ToolCall) (fns : List RegisteredTool) (pc : Option PrefixClass)
        (fix ci : Bool) (r : ToolResult),
        process_tool_call tc fns pc fix ci = .ok r →
        r.error.isSome = true → r.output = .noneV)
    ∧ (∀ r : ToolResult, r.error = Option.none → r.output = .noneV →
        (ToolResult.to_message r).content = "") := by
  refine ⟨?_, ?_, ?_⟩
  · intro r
    cases ho : r.output <;> simp [ToolResult.to_message, ho]
  · intro tc fns pc fix ci r hr he
    cases h1 : json_loads tc.function.arguments with
    | ok v =>
      rw [process_ok_parse fns pc fix ci h1] at hr
      cases pc with
      | none =>
        rw [processAfterDecode_none] at hr
        simp only [Except.ok.injEq] at hr
        subst hr
        exact dispatchLoop_error_output _ _ _ _ _ he
      | some pc =>
        cases v with
        | obj kvs =>
          simp only [processAfterDecode, Except.ok.injEq] at hr
          subst hr
          simp only [processWithPrefix] at he ⊢
          exact dispatchLoop_error_output _ _ _ _ _ he
        | null => simp [processAfterDecode] at hr
        | bool b => simp [processAfterDecode] at hr
        | num n => simp [processAfterDecode] at hr
        | str s => simp [processAfterDecode] at hr
        | arr xs => simp [processAfterDecode] at hr
    | error e =>
      cases fix with
      | false =>
        rw [process_err_nofix fns pc ci h1] at hr
        simp only [Except.ok.injEq] at hr
        subst hr
        rfl
      | true =>
        cases h2 : json_loads (fixArgs tc.function.arguments) with
        | ok v =>
          rw [process_err_fix_ok fns pc ci h1 h2] at hr
          cases pc with
          | none =>
            rw [processAfterDecode_none] at hr
            simp only [Except.ok.injEq] at hr
            subst hr
            exact dispatchLoop_error_output _ _ _ _ _ he
          | some pc =>
            cases v with
            | obj kvs =>
              simp only [processAfterDecode, Except.ok.injEq] at hr
              subst hr
              simp only [processWithPrefix] at he ⊢
              exact dispatchLoop_error_output _ _ _ _ _ he
            | null => simp [processAfterDecode] at hr
            | bool b => simp [processAfterDecode] at hr
            | num n => simp [processAfterDecode] at hr
            | str s => simp [processAfterDecode] at hr
            | arr xs => simp [processAfterDecode] at hr
        | error e2 =>
          rw [process_err_fix_err fns pc ci h1 h2] at hr
          simp at hr
  · intro r he ho
    simp [ToolResult.to_message, he, ho, pyTruthy]

/-- Witness for `C9_to_message_amended`: a dispatched call whose callable
raises keeps the output `None`, and an errorless `ToolResult` with output
`None` renders empty content. -/
theorem C9_to_message_amended_witness :
    ((ToolResult.to_message { tool_call_id := "1", name := "f" }).content = "")
    ∧ ((ToolResult.to_message
        { tool_call_id := "1", name := "greet", output := .str "hi" }).content = "hi") := by
  refine ⟨C9_to_message_amended.2.2 { tool_call_id := "1", name := "f" } rfl rfl, ?_⟩
  have := C9_to_message_amended.1 { tool_call_id := "1", name := "greet", output := .str "hi" }
  simpa using this

/-! ### Claim C6 -/

theorem strListValue_some {f : FieldSpec} {kvs : List (String × Json)} {s : String}
    (h : strListValue f kvs = some s) :
    is_list_type f.2.1 = true ∧ getKey kvs f.1 = some (.str s) := by
  unfold strListValue at h
  by_cases hl : is_list_type f.2.1
  · rw [if_pos hl] at h
    refine ⟨hl, ?_⟩
    cases hg : getKey kvs f.1 with
    | none => rw [hg] at h; simp at h
    | some v =>
      rw [hg] at h
      cases v with
      | str t => simp at h; rw [h]
      | null => simp at h
      | bool b => simp at h
      | num n => simp at h
      | arr xs => simp at h
      | obj l => simp at h
  · rw [if_neg hl] at h
    simp at h

theorem fixListArgs_getKey_other (fields : List FieldSpec)
    (kvs : List (String × Json)) (k : String) (h : ∀ g ∈ fields, g.1 ≠ k) :
    getKey (fixListArgs fields kvs).1 k = getKey kvs k := by
  induction fields generalizing kvs with
  | nil => rfl
  | cons g rest ih =>
    have hg : g.1 ≠ k := h g (List.mem_cons_self _ _)
    have hrest : ∀ g' ∈ rest, g'.1 ≠ k := fun g' hg' => h g' (List.mem_cons_of_mem _ hg')
    simp only [fixListArgs]
    cases hs : strListValue g kvs with
    | none => exact ih kvs hrest
    | some s =>
      simp only
      rw [ih _ hrest, getKey_setKey_ne _ _ _ _ (fun hh => hg hh.symm)]

theorem fixListArgs_fixes (fields : List FieldSpec) (kvs : List (String × Json))
    (fname : String) (a : Annot) (d : Option PyValue) (s : String)
    (hmem : (fname, a, d) ∈ fields) (hnd : (fields.map (fun g => g.1)).Nodup)
    (hl : is_list_type a = true) (hv : getKey kvs fname = some (.str s)) :
    getKey (fixListArgs fields kvs).1 fname = some (split_string_to_list s)
    ∧ SoftErr.msg ("Fixed JSON decode error for field " ++ fname)
        ∈ (fixListArgs fields kvs).2 := by
  induction fields generalizing kvs with
  | nil => simp at hmem
  | cons g rest ih =>
    rcases List.mem_cons.mp hmem with hg | hg
    · subst hg
      have hs : strListValue (fname, a, d) kvs = some s := by
        unfold strListValue
        simp only [hl, if_pos]
        rw [hv]
      simp only [fixListArgs, hs]
      have hrest : ∀ g' ∈ rest, g'.1 ≠ fname := by
        intro g' hg' heq
        simp only [List.map_cons, List.nodup_cons] at hnd
        exact hnd.1 (heq ▸ List.mem_map_of_mem (fun g => g.1) hg')
      constructor
      · rw [fixListArgs_getKey_other rest _ fname hrest, getKey_setKey_self]
      · exact List.mem_cons_self _ _
    · have hgne : g.1 ≠ fname := by
        intro heq
        simp only [List.map_cons, List.nodup_cons] at hnd
        exact hnd.1 (heq ▸ List.mem_map_of_mem (fun g => g.1) hg)
      have hnd' : (rest.map (fun g => g.1)).Nodup := by
        simp only [List.map_cons, List.nodup_cons] at hnd
        exact hnd.2
      simp only [fixListArgs]
      cases hs : strListValue g kvs with
      | none => exact ih kvs hg hnd' hv
      | some s' =>
        simp only
        have hv' : getKey (setKey kvs g.1 (split_string_to_list s')) fname
            = some (.str s) := by
          rw [getKey_setKey_ne _ _ _ _ (fun hh => hgne hh.symm), hv]
        obtain ⟨h1, h2⟩ := ih _ hg hnd' hv'
        exact ⟨h1, List.mem_cons_of_mem _ h2⟩

/-- Claim C6, confirmed. With repair enabled, every declared field whose
annotation is list-compatible (`is_list_type`: a bare `list`, or a
`Union`/`Optional` containing a list) and whose decoded value is a string is
replaced by `split_string_to_list` of that string — which first attempts
`json.loads` and falls back on parse failure to splitting on commas with
each piece stripped — and a soft note records the repair. Concretely,
`"John, Doe"` coerces to `["John","Doe"]` with a soft error recorded, the
JSON array literal string also coerces, and with repair disabled either
input yields a validation hard error. -/
theorem C6_list_repair (fields : List FieldSpec) (kvs : List (String × Json))
    (fname : String) (a : Annot) (d : Option PyValue) (s : String)
    (hmem : (fname, a, d) ∈ fields) (hnd : (fields.map (fun g => g.1)).Nodup)
    (hl : is_list_type a = true) (hv : getKey kvs fname = some (.str s)) :
    (getKey (fixListArgs fields kvs).1 fname = some (split_string_to_list s)
      ∧ SoftErr.msg ("Fixed JSON decode error for field " ++ fname)
          ∈ (fixListArgs fields kvs).2)
    ∧ (∀ f : RegisteredTool, (_process_unpacked f (.obj kvs) true).1
        = .obj (fixListArgs f.params kvs).1)
    ∧ (∀ t v, json_loads t = .ok v → split_string_to_list t = v)
    ∧ (∀ t e, json_loads t = .error e →
        split_string_to_list t
          = .arr ((pySplit t.data ',').map (fun cs => .str (pyStrip (String.mk cs)))))
    ∧ ((process_tool_call ⟨"1", ⟨"print_names", "\x7b\"names\": \"John, Doe\"\x7d"⟩⟩
          [namesTool] Option.none true false).toOption.map
        (fun r => (r.error.isNone, r.soft_errors,
          match r.output with | .list [.str x, .str y] => some (x, y) | _ => Option.none))
      = some (true, [.msg "Fixed JSON decode error for field names"],
          some ("John", "Doe")))
    ∧ ((process_tool_call
          ⟨"1", ⟨"print_names", "\x7b\"names\": \"[\\\"John\\\", \\\"Doe\\\"]\"\x7d"⟩⟩
          [namesTool] Option.none true false).toOption.map
        (fun r => (r.error.isNone, r.soft_errors.length,
          match r.output with | .list [.str x, .str y] => some (x, y) | _ => Option.none))
      = some (true, 1, some ("John", "Doe")))
    ∧ ((process_tool_call ⟨"1", ⟨"print_names", "\x7b\"names\": \"John, Doe\"\x7d"⟩⟩
          [namesTool] Option.none false false).toOption.map
        (fun r => (match r.error with | some (.validationError _) => true | _ => false,
          r.soft_errors.isEmpty))
      = some (true, true))
    ∧ ((process_tool_call
          ⟨"1", ⟨"print_names", "\x7b\"names\": \"[\\\"John\\\", \\\"Doe\\\"]\"\x7d"⟩⟩
          [namesTool] Option.none false false).toOption.map
        (fun r => (match r.error with | some (.validationError _) => true | _ => false))
      = some true) := by
  refine ⟨fixListArgs_fixes fields kvs fname a d s hmem hnd hl hv,
    fun f => rfl, ?_, ?_, rfl, rfl, rfl, rfl⟩
  · intro t v ht
    unfold split_string_to_list
    rw [ht]
  · intro t e ht
    unfold split_string_to_list
    rw [ht]

/-- Witness for `C6_list_repair` at the `print_names` field specification. -/
theorem C6_list_repair_witness :
    getKey (fixListArgs namesTool.params [("names", .str "John, Doe")]).1 "names"
        = some (split_string_to_list "John, Doe")
    ∧ split_string_to_list "John, Doe" = .arr [.str "John", .str "Doe"] :=
  ⟨(C6_list_repair namesTool.params [("names", .str "John, Doe")] "names"
      (Annot.list Annot.str) Option.none "John, Doe"
      (List.mem_singleton.mpr rfl) (by decide) rfl rfl).1.1, rfl⟩

/-! ### Claim C10 -/

/-- The pydantic parameter-model schema of a callable with two parameters
named exactly `title` and `type` (both strings). -/
def titleTypeModelSchema : Json := .obj [
  ("properties", .obj [
    ("title", .obj [("title", .str "Title"), ("type", .str "string")]),
    ("type", .obj [("title", .str "Type"), ("type", .str "string")])]),
  ("required", .arr [.str "title", .str "type"]),
  ("title", .str "f_ParameterModel"),
  ("type", .str "object")]

/-- Claim C10, confirmed. For a callable whose parameters are named exactly
`title` and `type`, lenient-mode schema generation removes the entire
`title` property — its whole sub-schema — from the properties map: the
properties map is itself a dict containing the keys `title` and `type`, so
`_recursive_purge_titles` deletes its `title` key. The surviving `type`
property keeps its (title-purged) sub-schema, and `required` still lists
both names. -/
theorem C10_title_property_deleted :
    get_function_schema "f" "" titleTypeModelSchema false false
      = .ok [("name", .str "f"), ("description", .str ""),
             ("parameters", .obj [
               ("properties", .obj [("type", .obj [("type", .str "string")])]),
               ("required", .arr [.str "title", .str "type"]),
               ("type", .str "object")])] := rfl

/-! ### Claims C3 and C2: shared lemmas about key lookups -/

theorem getKey_map_values (l : List (String × Json)) (f : Json → Json) (k : String) :
    getKey (l.map (fun p => (p.1, f p.2))) k = (getKey l k).map f := by
  induction l with
  | nil => simp [getKey]
  | cons p rest ih =>
    by_cases hp : p.1 = k
    · simp [getKey, hp]
    · simp [getKey, hp, ih]

theorem getKey_filter_out (l : List (String × Json)) (k : String) :
    getKey (l.filter (fun p => !(p.1 == k))) k = Option.none := by
  induction l with
  | nil => simp [getKey]
  | cons p rest ih =>
    by_cases hp : p.1 = k
    · simpa [List.filter, hp] using ih
    · simp only [List.filter]
      rw [show (!(p.1 == k)) = true by simp [hp]]
      simp only [getKey, if_neg hp]
      exact ih

theorem getKey_filter_keep (l : List (String × Json)) (k k' : String)
    (h : k' ≠ k) : getKey (l.filter (fun p => !(p.1 == k))) k' = getKey l k' := by
  induction l with
  | nil => simp
  | cons p rest ih =>
    by_cases hp : p.1 = k
    · have hne : p.1 ≠ k' := fun hh => h (hh ▸ hp)
      have h1 : getKey (p :: rest) k' = getKey rest k' := by
        obtain ⟨pk, pv⟩ := p
        simp only at hne
        simp [getKey, hne]
      rw [h1, ← ih]
      simp [List.filter, hp]
    · simp only [List.filter]
      rw [show (!(p.1 == k)) = true by simp [hp]]
      by_cases hq : p.1 = k'
      · simp [getKey, hq]
      · simp only [getKey, if_neg hq]
        exact ih

/-! ### Claim C3: the purge transformation -/

theorem purgeTitlesF_congr :
    ∀ f1 f2 j, jsize j ≤ f1 → jsize j ≤ f2 → purgeTitlesF f1 j = purgeTitlesF f2 j := by
  intro f1
  induction f1 with
  | zero =>
    intro f2 j h1 _
    have := jsize_pos j
    omega
  | succ a ih =>
    intro f2 j h1 h2
    cases f2 with
    | zero =>
      have := jsize_pos j
      omega
    | succ b =>
      cases j with
      | obj kvs =>
        simp only [purgeTitlesF]
        congr 1
        apply List.map_congr_left
        intro p hp
        have hpk : p ∈ kvs := by
          by_cases ht : hasKey kvs "type"
          · rw [if_pos ht] at hp
            exact List.mem_filter.mp hp |>.1
          · rwa [if_neg ht] at hp
        obtain ⟨pk, pv⟩ := p
        have hsz : jsize pv < jsize (Json.obj kvs) := by
          have := jsize_snd_lt_of_mem hpk
          simp [jsize]
          omega
        rw [ih b pv (by omega) (by omega)]
      | null => rfl
      | bool x => rfl
      | num x => rfl
      | str x => rfl
      | arr x => rfl

theorem jsize_obj_succ (kvs : List (String × Json)) :
    jsize (Json.obj kvs) = jsizeKVs kvs + 1 := by
  simp [jsize]
  omega

theorem purgeTitles_obj (kvs : List (String × Json)) :
    purgeTitles (.obj kvs)
      = .obj ((if hasKey kvs "type" then kvs.filter (fun p => !(p.1 == "title"))
               else kvs).map (fun p => (p.1, purgeTitles p.2))) := by
  unfold purgeTitles
  rw [jsize_obj_succ]
  simp only [purgeTitlesF]
  congr 1
  apply List.map_congr_left
  intro p hp
  have hpk : p ∈ kvs := by
    by_cases ht : hasKey kvs "type"
    · rw [if_pos ht] at hp
      exact List.mem_filter.mp hp |>.1
    · rwa [if_neg ht] at hp
  obtain ⟨pk, pv⟩ := p
  have hsz : jsize pv < jsize (Json.obj kvs) := by
    have := jsize_snd_lt_of_mem hpk
    simp [jsize]
    omega
  have := jsize_obj_succ kvs
  rw [purgeTitlesF_congr (jsizeKVs kvs) (jsize pv) pv (by omega) (by omega)]

theorem purge_noTitleTypeDictF :
    ∀ fuel j, jsize j ≤ fuel →
      ∀ g, jsize (purgeTitlesF fuel j) ≤ g →
        noTitleTypeDictF g (purgeTitlesF fuel j) = true := by
  intro fuel
  induction fuel with
  | zero =>
    intro j h1 g hg
    have := jsize_pos j
    omega
  | succ a ih =>
    intro j h1 g hg
    cases j with
    | obj kvs =>
      simp only [purgeTitlesF] at hg ⊢
      cases g with
      | zero =>
        have := jsize_pos (Json.obj ((if hasKey kvs "type"
          then kvs.filter (fun p => !(p.1 == "title")) else kvs).map
            (fun p => (p.1, purgeTitlesF a p.2))))
        omega
      | succ g' =>
        simp only [noTitleTypeDictF, Bool.and_eq_true, List.all_eq_true]
        constructor
        · by_cases ht : hasKey kvs "type"
          · rw [if_pos ht]
            have : hasKey ((kvs.filter (fun p => !(p.1 == "title"))).map
                (fun p => (p.1, purgeTitlesF a p.2))) "title" = false := by
              rw [hasKey, getKey_map_values, getKey_filter_out]
              rfl
            simp [this]
          · rw [if_neg ht]
            have : hasKey (kvs.map (fun p => (p.1, purgeTitlesF a p.2))) "type"
                = false := by
              rw [hasKey, getKey_map_values]
              rw [hasKey] at ht
              cases hk : getKey kvs "type" with
              | none => rfl
              | some v => rw [hk] at ht; simp at ht
            simp [this]
        · intro q hq
          rcases List.mem_map.mp hq with ⟨p, hp, hpq⟩
          have hpk : p ∈ kvs := by
            by_cases ht : hasKey kvs "type"
            · rw [if_pos ht] at hp
              exact List.mem_filter.mp hp |>.1
            · rwa [if_neg ht] at hp
          have hsz1 : jsize p.2 ≤ a := by
            have h1' := jsize_snd_lt_of_mem (l := kvs) (k := p.1) (v := p.2)
              (by cases p; exact hpk)
            have := jsize_obj_succ kvs
            omega
          have hsz2 : jsize (purgeTitlesF a p.2) ≤ g' := by
            have hmem2 : q ∈ (if hasKey kvs "type"
                then kvs.filter (fun p => !(p.1 == "title")) else kvs).map
                  (fun p => (p.1, purgeTitlesF a p.2)) := hq
            have h2' := jsize_snd_lt_of_mem (l := (if hasKey kvs "type"
                then kvs.filter (fun p => !(p.1 == "title")) else kvs).map
                  (fun p => (p.1, purgeTitlesF a p.2))) (k := q.1) (v := q.2)
              (by cases q; exact hmem2)
            have := jsize_obj_succ ((if hasKey kvs "type"
                then kvs.filter (fun p => !(p.1 == "title")) else kvs).map
                  (fun p => (p.1, purgeTitlesF a p.2)))
            have hq2 : q.2 = purgeTitlesF a p.2 := by rw [← hpq]
            rw [← hq2]
            omega
          have := ih p.2 hsz1 g' hsz2
          have hq2 : q.2 = purgeTitlesF a p.2 := by rw [← hpq]
          rw [hq2]
          exact this
    | null =>
      cases g with
      | zero => simp [purgeTitlesF, jsize] at hg
      | succ g' => rfl
    | bool x =>
      cases g with
      | zero => simp [purgeTitlesF, jsize] at hg
      | succ g' => rfl
    | num x =>
      cases g with
      | zero => simp [purgeTitlesF, jsize] at hg
      | succ g' => rfl
    | str x =>
      cases g with
      | zero => simp [purgeTitlesF, jsize] at hg
      | succ g' => rfl
    | arr x =>
      cases g with
      | zero => simp [purgeTitlesF, jsize] at hg
      | succ g' => rfl

/-- A pydantic-shaped schema with a titled, typed node inside an `anyOf`
branch (e.g. what a union member with decorative metadata produces). -/
def anyOfTitled : Json := .obj [
  ("properties", .obj [
    ("x", .obj [("anyOf", .arr [.obj [("title", .str "X"), ("type", .str "integer")]]),
                ("title", .str "X")])]),
  ("required", .arr [.str "x"]),
  ("title", .str "f_ParameterModel"),
  ("type", .str "object")]

/-- Claim C3, counterexample. The claim says the lenient-mode schema
contains no node with both a `title` and a `type` key anywhere — including
inside `anyOf` branches. But `_recursive_purge_titles` only recurses into
`dict` values and does nothing on a `list`, so a node with both keys inside
an `anyOf` array survives the purge: `hasTitleTypeAny` still finds one in
the produced parameters. -/
theorem C3_counterexample :
    (get_function_schema "f" "" anyOfTitled false false).toOption.map
      (fun out => (getKey out "parameters").map hasTitleTypeAny)
      = some (some true) := rfl

/-- Claim C3, amended. Lenient-mode title stripping removes exactly the
`title` keys that co-occur with a `type` key, recursively through
dict-valued entries only: after the purge no node reachable through dict
values has both keys (first conjunct), every other key of every dict
survives with its value recursively purged and order preserved (second and
third conjuncts), and the produced schema's `parameters` is exactly the
purged model schema with the `description` untouched (fourth conjunct).
Nodes inside list values — `anyOf`/`allOf` arrays — are not visited and may
retain a co-occurring `title` (counterexample). -/
theorem C3_lenient_titles_amended :
    (∀ j, noTitleTypeDict (purgeTitles j) = true)
    ∧ (∀ kvs, hasKey kvs "type" = false →
        purgeTitles (.obj kvs) = .obj (kvs.map (fun p => (p.1, purgeTitles p.2))))
    ∧ (∀ kvs, hasKey kvs "type" = true →
        purgeTitles (.obj kvs)
          = .obj ((kvs.filter (fun p => !(p.1 == "title"))).map
              (fun p => (p.1, purgeTitles p.2))))
    ∧ (∀ fname desc j out, get_function_schema fname desc j false false = .ok out →
        getKey out "parameters" = some (purgeTitles j)
        ∧ getKey out "description" = some (.str desc)) := by
  refine ⟨?_, ?_, ?_, ?_⟩
  · intro j
    exact purge_noTitleTypeDictF (jsize j) j (le_refl _) _ (le_refl _)
  · intro kvs h
    rw [purgeTitles_obj, if_neg (by simp [h])]
  · intro kvs h
    rw [purgeTitles_obj, if_pos h]
  · intro fname desc j out h
    simp only [get_function_schema, Bool.false_eq_true, if_false, Except.ok.injEq] at h
    subst h
    exact ⟨rfl, rfl⟩

/-- Witness for `C3_lenient_titles_amended`, applied at concrete schemas. -/
theorem C3_lenient_titles_amended_witness :
    noTitleTypeDict (purgeTitles titleTypeModelSchema) = true
    ∧ purgeTitles (.obj [("title", .str "T"), ("description", .str "d")])
        = .obj [("title", purgeTitles (.str "T")),
                ("description", purgeTitles (.str "d"))]
    ∧ purgeTitles (.obj [("title", .str "T"), ("type", .str "string")])
        = .obj [("type", purgeTitles (.str "string"))] := by
  refine ⟨C3_lenient_titles_amended.1 titleTypeModelSchema, ?_, ?_⟩
  · exact C3_lenient_titles_amended.2.1 [("title", .str "T"), ("description", .str "d")] rfl
  · exact C3_lenient_titles_amended.2.2.1 [("title", .str "T"), ("type", .str "string")] rfl

/-! ### Claim C5: lemmas about dict update/merge semantics -/

theorem getKey_none_of_not_mem (l : List (String × Json)) (k : String)
    (h : k ∉ l.map Prod.fst) : getKey l k = Option.none := by
  induction l with
  | nil => rfl
  | cons p rest ih =>
    simp only [List.map_cons, List.mem_cons] at h
    push_neg at h
    simp only [getKey, if_neg (fun hh : p.1 = k => h.1 hh.symm)]
    exact ih h.2

theorem mem_keys_of_getKey_some {l : List (String × Json)} {k : String} {v : Json}
    (h : getKey l k = some v) : k ∈ l.map Prod.fst :=
  List.mem_map.mpr ⟨(k, v), getKey_mem h, rfl⟩

theorem setKey_of_not_has (l : List (String × Json)) (k : String) (v : Json)
    (h : hasKey l k = false) : setKey l k v = l ++ [(k, v)] := by
  induction l with
  | nil => rfl
  | cons p rest ih =>
    rw [hasKey] at h
    by_cases hp : p.1 = k
    · exfalso
      obtain ⟨pk, pv⟩ := p
      simp only at hp
      subst hp
      simp [getKey] at h
    · simp only [setKey, if_neg hp, List.cons_append]
      rw [ih]
      rw [hasKey]
      obtain ⟨pk, pv⟩ := p
      simp only at hp
      simp only [getKey, if_neg hp] at h
      exact h

theorem keys_setKey (l : List (String × Json)) (k : String) (v : Json) :
    (setKey l k v).map Prod.fst
      = if hasKey l k then l.map Prod.fst else l.map Prod.fst ++ [k] := by
  induction l with
  | nil => simp [setKey, hasKey, getKey]
  | cons p rest ih =>
    by_cases hp : p.1 = k
    · obtain ⟨pk, pv⟩ := p
      simp only at hp
      subst hp
      simp [setKey, hasKey, getKey]
    · obtain ⟨pk, pv⟩ := p
      simp only at hp
      have hcons : hasKey ((pk, pv) :: rest) k = hasKey rest k := by
        simp [hasKey, getKey, hp]
      simp only [setKey, if_neg hp, List.map_cons, ih, hcons]
      by_cases hh : hasKey rest k
      · simp [hh]
      · simp [hh]

theorem getKey_isSome_of_mem_keys (l : List (String × Json)) (k : String)
    (h : k ∈ l.map Prod.fst) : (getKey l k).isSome = true := by
  induction l with
  | nil => simp at h
  | cons p rest ih =>
    simp only [List.map_cons, List.mem_cons] at h
    by_cases hp : p.1 = k
    · simp [getKey, hp]
    · simp only [getKey, if_neg hp]
      rcases h with h | h
      · exact absurd h.symm hp
      · exact ih h

theorem nodup_keys_setKey (l : List (String × Json)) (k : String) (v : Json)
    (h : (l.map Prod.fst).Nodup) : ((setKey l k v).map Prod.fst).Nodup := by
  rw [keys_setKey]
  by_cases hh : hasKey l k
  · simp [hh, h]
  · simp only [hh, if_false, Bool.false_eq_true]
    have hk : k ∉ l.map Prod.fst := by
      intro hmem
      exact hh (getKey_isSome_of_mem_keys l k hmem)
    simp [List.nodup_append, h, hk]

theorem getKey_delKey_self (l : List (String × Json)) (k : String)
    (h : (l.map Prod.fst).Nodup) : getKey (delKey l k) k = Option.none := by
  induction l with
  | nil => rfl
  | cons p rest ih =>
    obtain ⟨pk, pv⟩ := p
    simp only [List.map_cons, List.nodup_cons] at h
    by_cases hp : pk = k
    · subst hp
      simp only [delKey, if_pos rfl]
      exact getKey_none_of_not_mem rest pk h.1
    · simp only [delKey, if_neg hp, getKey, if_neg hp]
      exact ih h.2

theorem foldl_setKey_getKey (tprops : List (String × Json))
    (pprops : List (String × Json)) (k : String)
    (hnd : (tprops.map Prod.fst).Nodup) :
    getKey (tprops.foldl (fun acc kv => setKey acc kv.1 kv.2) pprops) k
      = match getKey tprops k with
        | some v => some v
        | Option.none => getKey pprops k := by
  induction tprops generalizing pprops with
  | nil => simp [getKey]
  | cons q rest ih =>
    obtain ⟨qk, qv⟩ := q
    simp only [List.map_cons, List.nodup_cons] at hnd
    simp only [List.foldl_cons]
    rw [ih _ hnd.2]
    by_cases hq : qk = k
    · subst hq
      have : getKey rest qk = Option.none := getKey_none_of_not_mem rest qk hnd.1
      rw [this]
      simp only [getKey, if_pos rfl]
      exact getKey_setKey_self _ _ _
    · simp only [getKey, if_neg hq]
      cases hr : getKey rest k with
      | none => rw [getKey_setKey_ne _ _ _ _ (fun hh => hq hh.symm)]
      | some w => rfl

theorem foldl_setKey_disjoint (tprops : List (String × Json))
    (pprops : List (String × Json))
    (hd : ∀ kv ∈ tprops, hasKey pprops kv.1 = false)
    (hnd : (tprops.map Prod.fst).Nodup) :
    tprops.foldl (fun acc kv => setKey acc kv.1 kv.2) pprops = pprops ++ tprops := by
  induction tprops generalizing pprops with
  | nil => simp
  | cons q rest ih =>
    obtain ⟨qk, qv⟩ := q
    simp only [List.map_cons, List.nodup_cons] at hnd
    simp only [List.foldl_cons]
    rw [setKey_of_not_has _ _ _ (hd (qk, qv) (List.mem_cons_self _ _))]
    rw [ih (pprops ++ [(qk, qv)]) ?_ hnd.2]
    · simp
    · intro kv hkv
      rw [hasKey]
      have h1 : getKey pprops kv.1 = Option.none := by
        have := hd kv (List.mem_cons_of_mem _ hkv)
        rw [hasKey] at this
        cases hg : getKey pprops kv.1 with
        | none => rfl
        | some w => rw [hg] at this; simp at this
      have h2 : kv.1 ≠ qk := by
        intro hh
        exact hnd.1 (hh ▸ List.mem_map_of_mem Prod.fst hkv)
      rw [show getKey (pprops ++ [(qk, qv)]) kv.1 = Option.none from ?_]
      · rfl
      · clear ih hd hnd
        induction pprops with
        | nil =>
          simp only [List.nil_append, getKey]
          rw [if_neg (fun hh => h2 hh.symm)]
        | cons w ws ihw =>
          simp only [List.cons_append, getKey]
          by_cases hw : w.1 = kv.1
          · rw [getKey] at h1
            rw [if_pos hw] at h1 ⊢
            exact h1
          · rw [if_neg hw]
            apply ihw
            rw [getKey, if_neg hw] at h1
            exact h1

/-- The pydantic schema of a prefix model whose only field has a default
(`class P(BaseModel): x: int = 5`): pydantic omits the `required` key. -/
def noreqPrefixSchema : Json := .obj [
  ("properties", .obj [("x", .obj [("default", .num 5), ("title", .str "X"),
    ("type", .str "integer")])]),
  ("title", .str "P"),
  ("type", .str "object")]

/-- The pydantic schema of `class Reflection(BaseModel): relevancy: str`. -/
def reflectionModelSchema : Json := .obj [
  ("properties", .obj [("relevancy", .obj [("title", .str "Relevancy"),
    ("type", .str "string")])]),
  ("required", .arr [.str "relevancy"]),
  ("title", .str "Reflection"),
  ("type", .str "object")]

/-- A target function schema with one required parameter. -/
def c5Target : List (String × Json) := [
  ("name", .str "simple_function"),
  ("description", .str "Simple function does something."),
  ("parameters", .obj [
    ("properties", .obj [("count", .obj [("type", .str "integer")])]),
    ("required", .arr [.str "count"]),
    ("type", .str "object")])]

/-- Claim C5, counterexample. The claim quantifies over every prefix
typed-record class, but a prefix class whose fields all have defaults has no
`required` entry in its pydantic schema, and line 310's
`prefix_schema['required'].extend(...)` raises `KeyError` instead of
producing a merged schema. -/
theorem C5_counterexample :
    insert_prefix_schema "P" noreqPrefixSchema c5Target true false
      = .error (.keyError "required") := rfl

/-- Claim C5, amended. Provided the prefix's schema carries a `required`
list (the prefix class has at least one required field — otherwise, with a
target that has parameters, `insert_prefix` raises `KeyError`),
`insert_prefix` produces a merged schema whose `required` list is exactly
the prefix's required fields followed by the target's, whose properties are
the prefix's properties updated with the target's (the target's definition
wins on key collision, and with disjoint keys the result is exactly
prefix-properties followed by target-properties), whose `parameters` key is
omitted exactly when the merged property set is empty, and whose name is
`"{prefixName}_and_{targetName}"` with the prefix name case-folded when
case-insensitive mode is active. -/
theorem C5_insert_prefix_amended
    (pcName : String) (pms : Json) (schema : List (String × Json)) (ci : Bool)
    (pl : List (String × Json)) (preq : List Json) (pprops : List (String × Json))
    (tl : List (String × Json)) (treq : List Json) (tprops : List (String × Json))
    (tname : String)
    (hpurge : purgeTitles pms = .obj pl)
    (hpreq : getKey (delKey pl "description") "required" = some (.arr preq))
    (hpprops : getKey (delKey pl "description") "properties" = some (.obj pprops))
    (hparams : getKey schema "parameters" = some (.obj tl))
    (htreq : getKey tl "required" = some (.arr treq))
    (htprops : getKey tl "properties" = some (.obj tprops))
    (hname : getKey schema "name" = some (.str tname))
    (hnds : (schema.map Prod.fst).Nodup)
    (hndt : (tprops.map Prod.fst).Nodup) :
    ∃ out, insert_prefix_schema pcName pms schema true ci = .ok out
      ∧ (tprops.foldl (fun acc kv => setKey acc kv.1 kv.2) pprops ≠ [] →
          ∃ ps2, getKey out "parameters" = some (.obj ps2)
            ∧ getKey ps2 "required" = some (.arr (preq ++ treq))
            ∧ getKey ps2 "properties"
                = some (.obj (tprops.foldl (fun acc kv => setKey acc kv.1 kv.2) pprops)))
      ∧ (tprops.foldl (fun acc kv => setKey acc kv.1 kv.2) pprops = [] →
          hasKey out "parameters" = false)
      ∧ getKey out "name"
          = some (.str ((if ci then lowerS pcName else pcName) ++ "_and_" ++ tname))
      ∧ (∀ k, getKey (tprops.foldl (fun acc kv => setKey acc kv.1 kv.2) pprops) k
          = match getKey tprops k with
            | some v => some v
            | Option.none => getKey pprops k)
      ∧ ((∀ kv ∈ tprops, hasKey pprops kv.1 = false) →
          tprops.foldl (fun acc kv => setKey acc kv.1 kv.2) pprops
            = pprops ++ tprops) := by
  have hps2props : getKey (setKey (setKey (delKey pl "description") "required"
      (.arr (preq ++ treq))) "properties"
      (.obj (tprops.foldl (fun acc kv => setKey acc kv.1 kv.2) pprops))) "properties"
      = some (.obj (tprops.foldl (fun acc kv => setKey acc kv.1 kv.2) pprops)) :=
    getKey_setKey_self _ _ _
  have hmain : insert_prefix_schema pcName pms schema true ci
      = .ok (setKey
          (if jsonTruthy (.obj (tprops.foldl (fun acc kv => setKey acc kv.1 kv.2) pprops))
           then setKey schema "parameters" (.obj (setKey (setKey (delKey pl "description")
             "required" (.arr (preq ++ treq))) "properties"
             (.obj (tprops.foldl (fun acc kv => setKey acc kv.1 kv.2) pprops))))
           else delKey (setKey schema "parameters" (.obj (setKey (setKey
             (delKey pl "description") "required" (.arr (preq ++ treq))) "properties"
             (.obj (tprops.foldl (fun acc kv => setKey acc kv.1 kv.2) pprops)))))
             "parameters")
          "name" (.str ((if ci then lowerS pcName else pcName) ++ "_and_" ++ tname))) := by
    unfold insert_prefix_schema
    rw [hpurge]
    simp only [hparams, htreq, hpreq, hpprops, htprops, hname, hps2props, if_true]
  refine ⟨_, hmain, ?_, ?_, ?_, ?_, ?_⟩
  · intro hm
    have htr : jsonTruthy (.obj (tprops.foldl (fun acc kv => setKey acc kv.1 kv.2)
        pprops)) = true := by
      simp [jsonTruthy, hm]
    rw [htr]
    refine ⟨_, ?_, ?_, hps2props⟩
    · rw [getKey_setKey_ne _ _ _ _ (by decide), if_pos rfl]
      exact getKey_setKey_self _ _ _
    · rw [getKey_setKey_ne _ _ _ _ (by decide)]
      exact getKey_setKey_self _ _ _
  · intro hm
    have htr : jsonTruthy (.obj (tprops.foldl (fun acc kv => setKey acc kv.1 kv.2)
        pprops)) = false := by
      simp [jsonTruthy, hm]
    rw [htr]
    simp only [Bool.false_eq_true, if_false, hasKey]
    rw [getKey_setKey_ne _ _ _ _ (by decide)]
    rw [getKey_delKey_self _ _ (nodup_keys_setKey schema "parameters" _ hnds)]
    rfl
  · by_cases hm : tprops.foldl (fun acc kv => setKey acc kv.1 kv.2) pprops = []
    · rw [show jsonTruthy (.obj (tprops.foldl (fun acc kv => setKey acc kv.1 kv.2)
        pprops)) = false by simp [jsonTruthy, hm]]
      simp only [Bool.false_eq_true, if_false]
      exact getKey_setKey_self _ _ _
    · rw [show jsonTruthy (.obj (tprops.foldl (fun acc kv => setKey acc kv.1 kv.2)
        pprops)) = true by simp [jsonTruthy, hm]]
      simp only [if_pos]
      exact getKey_setKey_self _ _ _
  · intro k
    exact foldl_setKey_getKey tprops pprops k hndt
  · intro hd
    exact foldl_setKey_disjoint tprops pprops hd hndt

/-- Witness for `C5_insert_prefix_amended`: merging the `Reflection` prefix
into a one-parameter target schema. -/
theorem C5_insert_prefix_amended_witness :
    ∃ out, insert_prefix_schema "Reflection" reflectionModelSchema c5Target true false
        = .ok out
      ∧ getKey out "name" = some (.str "Reflection_and_simple_function") := by
  obtain ⟨out, hout, _, _, hn, _, _⟩ :=
    C5_insert_prefix_amended "Reflection" reflectionModelSchema c5Target false
      [("properties", .obj [("relevancy", .obj [("type", .str "string")])]),
       ("required", .arr [.str "relevancy"]), ("type", .str "object")]
      [.str "relevancy"]
      [("relevancy", .obj [("type", .str "string")])]
      [("properties", .obj [("count", .obj [("type", .str "integer")])]),
       ("required", .arr [.str "count"]), ("type", .str "object")]
      [.str "count"]
      [("count", .obj [("type", .str "integer")])]
      "simple_function"
      rfl rfl rfl rfl rfl rfl rfl (by decide) (by decide)
  exact ⟨out, hout, hn⟩

/-! ### Claim C2: inversion and preservation lemmas for the strict steps -/

theorem getObj_some_getKey {l : List (String × Json)} {k : String}
    {m : List (String × Json)} (h : getObj l k = some m) :
    getKey l k = some (.obj m) := by
  unfold getObj at h
  cases hg : getKey l k with
  | none => rw [hg] at h; simp at h
  | some v =>
    rw [hg] at h
    cases v with
    | obj m' => simp at h; rw [h]
    | null => simp at h
    | bool b => simp at h
    | num n => simp at h
    | str s => simp at h
    | arr xs => simp at h

theorem getArr_some_getKey {l : List (String × Json)} {k : String}
    {m : List Json} (h : getArr l k = some m) : getKey l k = some (.arr m) := by
  unfold getArr at h
  cases hg : getKey l k with
  | none => rw [hg] at h; simp at h
  | some v =>
    rw [hg] at h
    cases v with
    | arr m' => simp at h; rw [h]
    | null => simp at h
    | bool b => simp at h
    | num n => simp at h
    | str s => simp at h
    | obj kvs => simp at h

theorem getObj_eq_of_getKey_eq {l1 l2 : List (String × Json)} {k : String}
    (h : getKey l1 k = getKey l2 k) : getObj l1 k = getObj l2 k := by
  unfold getObj
  rw [h]

theorem getArr_eq_of_getKey_eq {l1 l2 : List (String × Json)} {k : String}
    (h : getKey l1 k = getKey l2 k) : getArr l1 k = getArr l2 k := by
  unfold getArr
  rw [h]

theorem stepProps_ok_some {rec : Json → Except String Json}
    {orig cur out props : List (String × Json)}
    (hg : getObj orig "properties" = some props)
    (h : stepProps rec orig cur = .ok out) :
    ∃ props', mapPairsME (fun p => rec p.2) props = .ok props'
      ∧ out = setKey (setKey cur "required" (.arr (props.map (fun p => Json.str p.1))))
          "properties" (.obj props') := by
  unfold stepProps at h
  rw [hg] at h
  dsimp only at h
  cases hm : mapPairsME (fun p => rec p.2) props with
  | error e => rw [hm] at h; simp at h
  | ok props' =>
    rw [hm] at h
    simp only [Except.ok.injEq] at h
    exact ⟨props', rfl, h.symm⟩

theorem stepProps_ok_none {rec : Json → Except String Json}
    {orig cur out : List (String × Json)}
    (hg : getObj orig "properties" = Option.none)
    (h : stepProps rec orig cur = .ok out) : out = cur := by
  unfold stepProps at h
  rw [hg] at h
  dsimp only at h
  simp only [Except.ok.injEq] at h
  exact h.symm

theorem stepItems_ok_some {rec : Json → Except String Json}
    {orig cur out its : List (String × Json)}
    (hg : getObj orig "items" = some its)
    (h : stepItems rec orig cur = .ok out) :
    ∃ its', rec (.obj its) = .ok its' ∧ out = setKey cur "items" its' := by
  unfold stepItems at h
  rw [hg] at h
  dsimp only at h
  cases hm : rec (.obj its) with
  | error e => rw [hm] at h; simp at h
  | ok its' =>
    rw [hm] at h
    simp only [Except.ok.injEq] at h
    exact ⟨its', rfl, h.symm⟩

theorem stepItems_ok_none {rec : Json → Except String Json}
    {orig cur out : List (String × Json)}
    (hg : getObj orig "items" = Option.none)
    (h : stepItems rec orig cur = .ok out) : out = cur := by
  unfold stepItems at h
  rw [hg] at h
  dsimp only at h
  simp only [Except.ok.injEq] at h
  exact h.symm

theorem stepBranches_ok_some {rec : Json → Except String Json} {key : String}
    {orig cur out : List (String × Json)} {xs : List Json}
    (hg : getArr orig key = some xs)
    (h : stepBranches rec key orig cur = .ok out) :
    ∃ xs', mapME rec xs = .ok xs' ∧ out = setKey cur key (.arr xs') := by
  unfold stepBranches at h
  rw [hg] at h
  dsimp only at h
  cases hm : mapME rec xs with
  | error e => rw [hm] at h; simp at h
  | ok xs' =>
    rw [hm] at h
    simp only [Except.ok.injEq] at h
    exact ⟨xs', rfl, h.symm⟩

theorem stepBranches_ok_none {rec : Json → Except String Json} {key : String}
    {orig cur out : List (String × Json)}
    (hg : getArr orig key = Option.none)
    (h : stepBranches rec key orig cur = .ok out) : out = cur := by
  unfold stepBranches at h
  rw [hg] at h
  dsimp only at h
  simp only [Except.ok.injEq] at h
  exact h.symm

theorem stepDefs_ok_some {rec : Json → Except String Json}
    {orig cur out ds : List (String × Json)}
    (hg : getObj orig "$defs" = some ds)
    (h : stepDefs rec orig cur = .ok out) :
    ∃ ds', mapPairsME (fun p => rec p.2) ds = .ok ds'
      ∧ out = setKey cur "$defs" (.obj ds') := by
  unfold stepDefs at h
  rw [hg] at h
  dsimp only at h
  cases hm : mapPairsME (fun p => rec p.2) ds with
  | error e => rw [hm] at h; simp at h
  | ok ds' =>
    rw [hm] at h
    simp only [Except.ok.injEq] at h
    exact ⟨ds', rfl, h.symm⟩

theorem stepDefs_ok_none {rec : Json → Except String Json}
    {orig cur out : List (String × Json)}
    (hg : getObj orig "$defs" = Option.none)
    (h : stepDefs rec orig cur = .ok out) : out = cur := by
  unfold stepDefs at h
  rw [hg] at h
  dsimp only at h
  simp only [Except.ok.injEq] at h
  exact h.symm

theorem stepProps_ok_getKey {rec : Json → Except String Json}
    {orig cur out : List (String × Json)} (h : stepProps rec orig cur = .ok out)
    (k : String) (h1 : k ≠ "required") (h2 : k ≠ "properties") :
    getKey out k = getKey cur k := by
  cases hg : getObj orig "properties" with
  | none => rw [stepProps_ok_none hg h]
  | some props =>
    obtain ⟨props', _, ho⟩ := stepProps_ok_some hg h
    rw [ho, getKey_setKey_ne _ _ _ _ h2, getKey_setKey_ne _ _ _ _ h1]

theorem stepItems_ok_getKey {rec : Json → Except String Json}
    {orig cur out : List (String × Json)} (h : stepItems rec orig cur = .ok out)
    (k : String) (h1 : k ≠ "items") : getKey out k = getKey cur k := by
  cases hg : getObj orig "items" with
  | none => rw [stepItems_ok_none hg h]
  | some its =>
    obtain ⟨its', _, ho⟩ := stepItems_ok_some hg h
    rw [ho, getKey_setKey_ne _ _ _ _ h1]

theorem stepBranches_ok_getKey {rec : Json → Except String Json} {key : String}
    {orig cur out : List (String × Json)} (h : stepBranches rec key orig cur = .ok out)
    (k : String) (h1 : k ≠ key) : getKey out k = getKey cur k := by
  cases hg : getArr orig key with
  | none => rw [stepBranches_ok_none hg h]
  | some xs =>
    obtain ⟨xs', _, ho⟩ := stepBranches_ok_some hg h
    rw [ho, getKey_setKey_ne _ _ _ _ h1]

theorem stepDefs_ok_getKey {rec : Json → Except String Json}
    {orig cur out : List (String × Json)} (h : stepDefs rec orig cur = .ok out)
    (k : String) (h1 : k ≠ "$defs") : getKey out k = getKey cur k := by
  cases hg : getObj orig "$defs" with
  | none => rw [stepDefs_ok_none hg h]
  | some ds =>
    obtain ⟨ds', _, ho⟩ := stepDefs_ok_some hg h
    rw [ho, getKey_setKey_ne _ _ _ _ h1]

theorem stepAP_getKey (kvs : List (String × Json)) (k : String)
    (h : k ≠ "additionalProperties") : getKey (stepAP kvs) k = getKey kvs k := by
  unfold stepAP
  by_cases hc : isTypeObject kvs && !hasKey kvs "additionalProperties"
  · rw [if_pos hc, getKey_setKey_ne _ _ _ _ h]
  · rw [if_neg hc]

theorem stepAP_ap (kvs : List (String × Json)) :
    getKey (stepAP kvs) "additionalProperties"
      = if isTypeObject kvs && !hasKey kvs "additionalProperties"
        then some (.bool false) else getKey kvs "additionalProperties" := by
  unfold stepAP
  by_cases hc : isTypeObject kvs && !hasKey kvs "additionalProperties"
  · rw [if_pos hc, if_pos hc, getKey_setKey_self]
  · rw [if_neg hc, if_neg hc]

theorem ensureStrictF_obj_inv {fuel : Nat} {kvs : List (String × Json)} {r : Json}
    (h : ensureStrictF (fuel + 1) (.obj kvs) = .ok r) :
    ∃ kvs2 kvs3 kvs4 kvs5 kvs6,
      stepProps (ensureStrictF fuel) kvs (stepAP kvs) = .ok kvs2
      ∧ stepItems (ensureStrictF fuel) kvs kvs2 = .ok kvs3
      ∧ stepBranches (ensureStrictF fuel) "anyOf" kvs kvs3 = .ok kvs4
      ∧ stepBranches (ensureStrictF fuel) "allOf" kvs kvs4 = .ok kvs5
      ∧ stepDefs (ensureStrictF fuel) kvs kvs5 = .ok kvs6
      ∧ r = .obj kvs6 := by
  simp only [ensureStrictF] at h
  cases hA : stepProps (ensureStrictF fuel) kvs (stepAP kvs) with
  | error e => rw [hA] at h; simp at h
  | ok kvs2 =>
    rw [hA] at h
    dsimp only at h
    cases hB : stepItems (ensureStrictF fuel) kvs kvs2 with
    | error e => rw [hB] at h; simp at h
    | ok kvs3 =>
      rw [hB] at h
      dsimp only at h
      cases hC : stepBranches (ensureStrictF fuel) "anyOf" kvs kvs3 with
      | error e => rw [hC] at h; simp at h
      | ok kvs4 =>
        rw [hC] at h
        dsimp only at h
        cases hD : stepBranches (ensureStrictF fuel) "allOf" kvs kvs4 with
        | error e => rw [hD] at h; simp at h
        | ok kvs5 =>
          rw [hD] at h
          dsimp only at h
          cases hE : stepDefs (ensureStrictF fuel) kvs kvs5 with
          | error e => rw [hE] at h; simp at h
          | ok kvs6 =>
            rw [hE] at h
            simp only [Except.ok.injEq] at h
            exact ⟨kvs2, kvs3, kvs4, kvs5, kvs6, rfl, hB, hC, hD, hE, h.symm⟩

theorem list_all_congr {α : Type} {l : List α} {f g : α → Bool}
    (h : ∀ x ∈ l, f x = g x) : l.all f = l.all g := by
  induction l with
  | nil => rfl
  | cons x rest ih =>
    simp only [List.all_cons]
    rw [h x (List.mem_cons_self _ _), ih (fun y hy => h y (List.mem_cons_of_mem _ hy))]

theorem getObj_child_jsize {kvs : List (String × Json)} {k : String}
    {ps : List (String × Json)} (hg : getObj kvs k = some ps)
    {q : String × Json} (hq : q ∈ ps) : jsize q.2 < jsize (Json.obj kvs) := by
  have h1 : jsize q.2 < jsizeKVs ps := by
    obtain ⟨qk, qv⟩ := q
    exact jsize_snd_lt_of_mem hq
  have h2 := getKey_jsize (getObj_some_getKey hg)
  rw [jsize_obj_succ ps] at h2
  omega

theorem getArr_child_jsize {kvs : List (String × Json)} {k : String}
    {xs : List Json} (hg : getArr kvs k = some xs)
    {x : Json} (hx : x ∈ xs) : jsize x < jsize (Json.obj kvs) := by
  have h1 : jsize x < jsizeList xs := jsize_mem_lt_of_mem hx
  have h2 := getKey_jsize (getArr_some_getKey hg)
  have h3 : jsize (Json.arr xs) = jsizeList xs + 1 := by
    simp [jsize]
    omega
  rw [h3] at h2
  omega

theorem getObj_jsize {kvs : List (String × Json)} {k : String}
    {its : List (String × Json)} (hg : getObj kvs k = some its) :
    jsize (Json.obj its) < jsize (Json.obj kvs) :=
  getKey_jsize (getObj_some_getKey hg)

theorem allNodesF_congr (p : List (String × Json) → Bool) :
    ∀ f1 f2 j, jsize j ≤ f1 → jsize j ≤ f2 →
      allNodesF p f1 j = allNodesF p f2 j := by
  intro f1
  induction f1 with
  | zero =>
    intro f2 j h1 _
    have := jsize_pos j
    omega
  | succ a ih =>
    intro f2 j h1 h2
    cases f2 with
    | zero =>
      have := jsize_pos j
      omega
    | succ b =>
      cases j with
      | obj kvs =>
        simp only [allNodesF]
        have e1 : (match getObj kvs "properties" with
            | some ps => ps.all (fun q => allNodesF p a q.2)
            | Option.none => true)
            = (match getObj kvs "properties" with
            | some ps => ps.all (fun q => allNodesF p b q.2)
            | Option.none => true) := by
          cases hg : getObj kvs "properties" with
          | none => rfl
          | some ps =>
            apply list_all_congr
            intro q hq
            have := getObj_child_jsize hg hq
            exact ih b q.2 (by omega) (by omega)
        have e2 : (match getObj kvs "items" with
            | some its => allNodesF p a (.obj its)
            | Option.none => true)
            = (match getObj kvs "items" with
            | some its => allNodesF p b (.obj its)
            | Option.none => true) := by
          cases hg : getObj kvs "items" with
          | none => rfl
          | some its =>
            have := getObj_jsize hg
            exact ih b (.obj its) (by omega) (by omega)
        have e3 : (match getArr kvs "anyOf" with
            | some xs => xs.all (allNodesF p a)
            | Option.none => true)
            = (match getArr kvs "anyOf" with
            | some xs => xs.all (allNodesF p b)
            | Option.none => true) := by
          cases hg : getArr kvs "anyOf" with
          | none => rfl
          | some xs =>
            apply list_all_congr
            intro x hx
            have := getArr_child_jsize hg hx
            exact ih b x (by omega) (by omega)
        have e4 : (match getArr kvs "allOf" with
            | some xs => xs.all (allNodesF p a)
            | Option.none => true)
            = (match getArr kvs "allOf" with
            | some xs => xs.all (allNodesF p b)
            | Option.none => true) := by
          cases hg : getArr kvs "allOf" with
          | none => rfl
          | some xs =>
            apply list_all_congr
            intro x hx
            have := getArr_child_jsize hg hx
            exact ih b x (by omega) (by omega)
        have e5 : (match getObj kvs "$defs" with
            | some ds => ds.all (fun q => allNodesF p a q.2)
            | Option.none => true)
            = (match getObj kvs "$defs" with
            | some ds => ds.all (fun q => allNodesF p b q.2)
            | Option.none => true) := by
          cases hg : getObj kvs "$defs" with
          | none => rfl
          | some ds =>
            apply list_all_congr
            intro q hq
            have := getObj_child_jsize hg hq
            exact ih b q.2 (by omega) (by omega)
        rw [e1, e2, e3, e4, e5]
      | null => rfl
      | bool x => rfl
      | num x => rfl
      | str x => rfl
      | arr x => rfl

/-- A node-local predicate holds on a node and on everything reachable from
it through the strict transform's edges (stated fuel-independently). -/
def NodesOk (p : List (String × Json) → Bool) (j : Json) : Prop :=
  ∀ g, jsize j ≤ g → allNodesF p g j = true

theorem NodesOk_nonobj (p : List (String × Json) → Bool) (j : Json)
    (h : ∀ kvs, j ≠ .obj kvs) : NodesOk p j := by
  intro g hg
  cases g with
  | zero =>
    have := jsize_pos j
    omega
  | succ g' =>
    cases j with
    | obj kvs => exact absurd rfl (h kvs)
    | null => rfl
    | bool x => rfl
    | num x => rfl
    | str x => rfl
    | arr x => rfl

theorem NodesOk_obj_intro (p : List (String × Json) → Bool)
    (kvs : List (String × Json)) (hl : p kvs = true)
    (hprops : ∀ ps, getObj kvs "properties" = some ps → ∀ q ∈ ps, NodesOk p q.2)
    (hitems : ∀ its, getObj kvs "items" = some its → NodesOk p (.obj its))
    (hany : ∀ xs, getArr kvs "anyOf" = some xs → ∀ x ∈ xs, NodesOk p x)
    (hall : ∀ xs, getArr kvs "allOf" = some xs → ∀ x ∈ xs, NodesOk p x)
    (hdefs : ∀ ds, getObj kvs "$defs" = some ds → ∀ q ∈ ds, NodesOk p q.2) :
    NodesOk p (.obj kvs) := by
  intro g hg
  cases g with
  | zero =>
    have := jsize_pos (Json.obj kvs)
    omega
  | succ g' =>
    simp only [allNodesF, Bool.and_eq_true]
    refine ⟨⟨⟨⟨⟨hl, ?_⟩, ?_⟩, ?_⟩, ?_⟩, ?_⟩
    · cases hg2 : getObj kvs "properties" with
      | none => rfl
      | some ps =>
        simp only [List.all_eq_true]
        intro q hq
        have := getObj_child_jsize hg2 hq
        exact hprops ps hg2 q hq g' (by omega)
    · cases hg2 : getObj kvs "items" with
      | none => rfl
      | some its =>
        have := getObj_jsize hg2
        exact hitems its hg2 g' (by omega)
    · cases hg2 : getArr kvs "anyOf" with
      | none => rfl
      | some xs =>
        simp only [List.all_eq_true]
        intro x hx
        have := getArr_child_jsize hg2 hx
        exact hany xs hg2 x hx g' (by omega)
    · cases hg2 : getArr kvs "allOf" with
      | none => rfl
      | some xs =>
        simp only [List.all_eq_true]
        intro x hx
        have := getArr_child_jsize hg2 hx
        exact hall xs hg2 x hx g' (by omega)
    · cases hg2 : getObj kvs "$defs" with
      | none => rfl
      | some ds =>
        simp only [List.all_eq_true]
        intro q hq
        have := getObj_child_jsize hg2 hq
        exact hdefs ds hg2 q hq g' (by omega)

theorem NodesOk_obj_elim (p : List (String × Json) → Bool)
    (kvs : List (String × Json)) (h : NodesOk p (.obj kvs)) :
    p kvs = true
    ∧ (∀ ps, getObj kvs "properties" = some ps → ∀ q ∈ ps, NodesOk p q.2)
    ∧ (∀ its, getObj kvs "items" = some its → NodesOk p (.obj its))
    ∧ (∀ xs, getArr kvs "anyOf" = some xs → ∀ x ∈ xs, NodesOk p x)
    ∧ (∀ xs, getArr kvs "allOf" = some xs → ∀ x ∈ xs, NodesOk p x)
    ∧ (∀ ds, getObj kvs "$defs" = some ds → ∀ q ∈ ds, NodesOk p q.2) := by
  have h0 := h (jsizeKVs kvs + 1) (by rw [jsize_obj_succ])
  simp only [allNodesF, Bool.and_eq_true] at h0
  obtain ⟨⟨⟨⟨⟨hl, h1⟩, h2⟩, h3⟩, h4⟩, h5⟩ := h0
  have hsz : jsize (Json.obj kvs) = jsizeKVs kvs + 1 := jsize_obj_succ kvs
  refine ⟨hl, ?_, ?_, ?_, ?_, ?_⟩
  · intro ps hg q hq
    rw [hg] at h1
    simp only [List.all_eq_true] at h1
    have hb := getObj_child_jsize hg hq
    intro g hg2
    rw [allNodesF_congr p g (jsizeKVs kvs) q.2 hg2 (by omega)]
    exact h1 q hq
  · intro its hg
    rw [hg] at h2
    have hb := getObj_jsize hg
    intro g hg2
    rw [allNodesF_congr p g (jsizeKVs kvs) (.obj its) hg2 (by omega)]
    exact h2
  · intro xs hg x hx
    rw [hg] at h3
    simp only [List.all_eq_true] at h3
    have hb := getArr_child_jsize hg hx
    intro g hg2
    rw [allNodesF_congr p g (jsizeKVs kvs) x hg2 (by omega)]
    exact h3 x hx
  · intro xs hg x hx
    rw [hg] at h4
    simp only [List.all_eq_true] at h4
    have hb := getArr_child_jsize hg hx
    intro g hg2
    rw [allNodesF_congr p g (jsizeKVs kvs) x hg2 (by omega)]
    exact h4 x hx
  · intro ds hg q hq
    rw [hg] at h5
    simp only [List.all_eq_true] at h5
    have hb := getObj_child_jsize hg hq
    intro g hg2
    rw [allNodesF_congr p g (jsizeKVs kvs) q.2 hg2 (by omega)]
    exact h5 q hq

theorem ensureStrictF_invariant :
    ∀ fuel j r, jsize j ≤ fuel → ensureStrictF fuel j = .ok r →
      NodesOk reqLocalOk r ∧ (NodesOk apPreLocal j → NodesOk apLocalOk r) := by
  intro fuel
  induction fuel with
  | zero =>
    intro j r h1 _
    have := jsize_pos j
    omega
  | succ a ih =>
    intro j r h1 h2
    cases j with
    | null => simp [ensureStrictF] at h2
    | bool x => simp [ensureStrictF] at h2
    | num x => simp [ensureStrictF] at h2
    | str x => simp [ensureStrictF] at h2
    | arr x => simp [ensureStrictF] at h2
    | obj kvs =>
      obtain ⟨kvs2, kvs3, kvs4, kvs5, kvs6, hA, hB, hC, hD, hE, hr⟩ :=
        ensureStrictF_obj_inv h2
      subst hr
      have hT : getKey kvs6 "type" = getKey kvs "type" := by
        rw [stepDefs_ok_getKey hE _ (by decide), stepBranches_ok_getKey hD _ (by decide),
          stepBranches_ok_getKey hC _ (by decide), stepItems_ok_getKey hB _ (by decide),
          stepProps_ok_getKey hA _ (by decide) (by decide), stepAP_getKey _ _ (by decide)]
      have hAP6 : getKey kvs6 "additionalProperties"
          = getKey (stepAP kvs) "additionalProperties" := by
        rw [stepDefs_ok_getKey hE _ (by decide), stepBranches_ok_getKey hD _ (by decide),
          stepBranches_ok_getKey hC _ (by decide), stepItems_ok_getKey hB _ (by decide),
          stepProps_ok_getKey hA _ (by decide) (by decide)]
      have hProps6 : getKey kvs6 "properties" = getKey kvs2 "properties" := by
        rw [stepDefs_ok_getKey hE _ (by decide), stepBranches_ok_getKey hD _ (by decide),
          stepBranches_ok_getKey hC _ (by decide), stepItems_ok_getKey hB _ (by decide)]
      have hReq6 : getKey kvs6 "required" = getKey kvs2 "required" := by
        rw [stepDefs_ok_getKey hE _ (by decide), stepBranches_ok_getKey hD _ (by decide),
          stepBranches_ok_getKey hC _ (by decide), stepItems_ok_getKey hB _ (by decide)]
      have hItems6 : getKey kvs6 "items" = getKey kvs3 "items" := by
        rw [stepDefs_ok_getKey hE _ (by decide), stepBranches_ok_getKey hD _ (by decide),
          stepBranches_ok_getKey hC _ (by decide)]
      have hAny6 : getKey kvs6 "anyOf" = getKey kvs4 "anyOf" := by
        rw [stepDefs_ok_getKey hE _ (by decide), stepBranches_ok_getKey hD _ (by decide)]
      have hAll6 : getKey kvs6 "allOf" = getKey kvs5 "allOf" := by
        rw [stepDefs_ok_getKey hE _ (by decide)]
      have hTobj : isTypeObject kvs6 = isTypeObject kvs := by
        unfold isTypeObject
        rw [hT]
      -- Edge characterizations of the output node.
      have hPcase : (∃ props props', getObj kvs "properties" = some props
          ∧ getObj kvs6 "properties" = some props'
          ∧ getKey kvs6 "required"
              = some (.arr (props.map (fun p => Json.str p.1)))
          ∧ props'.map Prod.fst = props.map Prod.fst
          ∧ (∀ q ∈ props', ∃ p ∈ props, ensureStrictF a p.2 = .ok q.2))
          ∨ (getObj kvs6 "properties" = Option.none
              ∧ getObj kvs "properties" = Option.none) := by
        cases hgp : getObj kvs "properties" with
        | some props =>
          obtain ⟨props', hm, h2'⟩ := stepProps_ok_some hgp hA
          left
          refine ⟨props, props', rfl, ?_, ?_, mapPairsME_keys hm, ?_⟩
          · unfold getObj
            rw [hProps6, h2', getKey_setKey_self]
          · rw [hReq6, h2', getKey_setKey_ne _ _ _ _ (by decide), getKey_setKey_self]
          · intro q hq
            obtain ⟨p, hp, hgp2, _⟩ := mapPairsME_mem hm q hq
            exact ⟨p, hp, hgp2⟩
        | none =>
          right
          have h2' := stepProps_ok_none hgp hA
          have hk : getKey kvs6 "properties" = getKey kvs "properties" := by
            rw [hProps6, h2', stepAP_getKey _ _ (by decide)]
          have heq := getObj_eq_of_getKey_eq (k := "properties") hk
          rw [heq, hgp]
          exact ⟨rfl, rfl⟩
      have hIcase : (∃ its its', getObj kvs "items" = some its
          ∧ ensureStrictF a (.obj its) = .ok its'
          ∧ getKey kvs6 "items" = some its')
          ∨ (getObj kvs6 "items" = Option.none
              ∧ getObj kvs "items" = Option.none) := by
        cases hgp : getObj kvs "items" with
        | some its =>
          obtain ⟨its', hrec, h3'⟩ := stepItems_ok_some hgp hB
          left
          exact ⟨its, its', rfl, hrec, by rw [hItems6, h3', getKey_setKey_self]⟩
        | none =>
          right
          have h3' := stepItems_ok_none hgp hB
          have hk : getKey kvs6 "items" = getKey kvs "items" := by
            rw [hItems6, h3', stepProps_ok_getKey hA _ (by decide) (by decide),
              stepAP_getKey _ _ (by decide)]
          have heq := getArr_eq_of_getKey_eq (k := "items") hk
          have heq2 := getObj_eq_of_getKey_eq (k := "items") hk
          rw [heq2, hgp]
          exact ⟨rfl, rfl⟩
      have hAncase : (∃ xs xs', getArr kvs "anyOf" = some xs
          ∧ getArr kvs6 "anyOf" = some xs'
          ∧ mapME (ensureStrictF a) xs = .ok xs')
          ∨ (getArr kvs6 "anyOf" = Option.none
              ∧ getArr kvs "anyOf" = Option.none) := by
        cases hgp : getArr kvs "anyOf" with
        | some xs =>
          obtain ⟨xs', hm, h4'⟩ := stepBranches_ok_some hgp hC
          left
          refine ⟨xs, xs', rfl, ?_, hm⟩
          unfold getArr
          rw [hAny6, h4', getKey_setKey_self]
        | none =>
          right
          have h4' := stepBranches_ok_none hgp hC
          have hk : getKey kvs6 "anyOf" = getKey kvs "anyOf" := by
            rw [hAny6, h4', stepItems_ok_getKey hB _ (by decide),
              stepProps_ok_getKey hA _ (by decide) (by decide),
              stepAP_getKey _ _ (by decide)]
          have heq := getArr_eq_of_getKey_eq (k := "anyOf") hk
          rw [heq, hgp]
          exact ⟨rfl, rfl⟩
      have hAlcase : (∃ xs xs', getArr kvs "allOf" = some xs
          ∧ getArr kvs6 "allOf" = some xs'
          ∧ mapME (ensureStrictF a) xs = .ok xs')
          ∨ (getArr kvs6 "allOf" = Option.none
              ∧ getArr kvs "allOf" = Option.none) := by
        cases hgp : getArr kvs "allOf" with
        | some xs =>
          obtain ⟨xs', hm, h5'⟩ := stepBranches_ok_some hgp hD
          left
          refine ⟨xs, xs', rfl, ?_, hm⟩
          unfold getArr
          rw [hAll6, h5', getKey_setKey_self]
        | none =>
          right
          have h5' := stepBranches_ok_none hgp hD
          have hk : getKey kvs6 "allOf" = getKey kvs "allOf" := by
            rw [hAll6, h5', stepBranches_ok_getKey hC _ (by decide),
              stepItems_ok_getKey hB _ (by decide),
              stepProps_ok_getKey hA _ (by decide) (by decide),
              stepAP_getKey _ _ (by decide)]
          have heq := getArr_eq_of_getKey_eq (k := "allOf") hk
          rw [heq, hgp]
          exact ⟨rfl, rfl⟩
      have hDcase : (∃ ds ds', getObj kvs "$defs" = some ds
          ∧ getObj kvs6 "$defs" = some ds'
          ∧ (∀ q ∈ ds', ∃ p ∈ ds, ensureStrictF a p.2 = .ok q.2))
          ∨ (getObj kvs6 "$defs" = Option.none
              ∧ getObj kvs "$defs" = Option.none) := by
        cases hgp : getObj kvs "$defs" with
        | some ds =>
          obtain ⟨ds', hm, h6'⟩ := stepDefs_ok_some hgp hE
          left
          refine ⟨ds, ds', rfl, ?_, ?_⟩
          · unfold getObj
            rw [h6', getKey_setKey_self]
          · intro q hq
            obtain ⟨p, hp, hgp2, _⟩ := mapPairsME_mem hm q hq
            exact ⟨p, hp, hgp2⟩
        | none =>
          right
          have h6' := stepDefs_ok_none hgp hE
          have hk : getKey kvs6 "$defs" = getKey kvs "$defs" := by
            rw [h6', stepBranches_ok_getKey hD _ (by decide),
              stepBranches_ok_getKey hC _ (by decide),
              stepItems_ok_getKey hB _ (by decide),
              stepProps_ok_getKey hA _ (by decide) (by decide),
              stepAP_getKey _ _ (by decide)]
          have heq := getObj_eq_of_getKey_eq (k := "$defs") hk
          rw [heq, hgp]
          exact ⟨rfl, rfl⟩
      -- Per-child invariants via the induction hypothesis.
      have ihProps : ∀ (props ps : List (String × Json)), getObj kvs "properties" = some props →
          (∀ q ∈ ps, ∃ p ∈ props, ensureStrictF a p.2 = .ok q.2) →
          ∀ q ∈ ps, NodesOk reqLocalOk q.2
            ∧ (NodesOk apPreLocal (.obj kvs) → NodesOk apLocalOk q.2) := by
        intro props ps hgp hch q hq
        obtain ⟨p, hp, hok⟩ := hch q hq
        have hsz := getObj_child_jsize hgp hp
        have := ih p.2 q.2 (by omega) hok
        refine ⟨this.1, fun hpre => this.2 ?_⟩
        exact (NodesOk_obj_elim apPreLocal kvs hpre).2.1 props hgp p hp
      have ihDefs : ∀ (ds ds2 : List (String × Json)), getObj kvs "$defs" = some ds →
          (∀ q ∈ ds2, ∃ p ∈ ds, ensureStrictF a p.2 = .ok q.2) →
          ∀ q ∈ ds2, NodesOk reqLocalOk q.2
            ∧ (NodesOk apPreLocal (.obj kvs) → NodesOk apLocalOk q.2) := by
        intro ds ds2 hgp hch q hq
        obtain ⟨p, hp, hok⟩ := hch q hq
        have hsz := getObj_child_jsize hgp hp
        have := ih p.2 q.2 (by omega) hok
        refine ⟨this.1, fun hpre => this.2 ?_⟩
        exact (NodesOk_obj_elim apPreLocal kvs hpre).2.2.2.2.2 ds hgp p hp
      have ihItems : ∀ (its : List (String × Json)) (its' : Json), getObj kvs "items" = some its →
          ensureStrictF a (.obj its) = .ok its' →
          NodesOk reqLocalOk its'
            ∧ (NodesOk apPreLocal (.obj kvs) → NodesOk apLocalOk its') := by
        intro its its' hgp hok
        have hsz := getObj_jsize hgp
        have := ih (.obj its) its' (by omega) hok
        refine ⟨this.1, fun hpre => this.2 ?_⟩
        exact (NodesOk_obj_elim apPreLocal kvs hpre).2.2.1 its hgp
      have ihAny : ∀ (xs xs' : List Json), getArr kvs "anyOf" = some xs →
          mapME (ensureStrictF a) xs = .ok xs' →
          ∀ x ∈ xs', NodesOk reqLocalOk x
            ∧ (NodesOk apPreLocal (.obj kvs) → NodesOk apLocalOk x) := by
        intro xs xs' hgp hm x hx
        obtain ⟨y, hy, hok⟩ := mapME_mem hm x hx
        have hsz := getArr_child_jsize hgp hy
        have := ih y x (by omega) hok
        refine ⟨this.1, fun hpre => this.2 ?_⟩
        exact (NodesOk_obj_elim apPreLocal kvs hpre).2.2.2.1 xs hgp y hy
      have ihAll : ∀ (xs xs' : List Json), getArr kvs "allOf" = some xs →
          mapME (ensureStrictF a) xs = .ok xs' →
          ∀ x ∈ xs', NodesOk reqLocalOk x
            ∧ (NodesOk apPreLocal (.obj kvs) → NodesOk apLocalOk x) := by
        intro xs xs' hgp hm x hx
        obtain ⟨y, hy, hok⟩ := mapME_mem hm x hx
        have hsz := getArr_child_jsize hgp hy
        have := ih y x (by omega) hok
        refine ⟨this.1, fun hpre => this.2 ?_⟩
        exact (NodesOk_obj_elim apPreLocal kvs hpre).2.2.2.2.1 xs hgp y hy
      constructor
      · -- required-list half, unconditional
        apply NodesOk_obj_intro
        · unfold reqLocalOk
          rw [hTobj]
          by_cases hto : isTypeObject kvs
          · rw [if_pos hto]
            rcases hPcase with ⟨props, props', hgp0, hset, hreq, hkeys, hch⟩ | ⟨hnone, _⟩
            · rw [hset, hreq]
              simp only [List.all_eq_true]
              intro q hq
              have hqk : q.1 ∈ props.map Prod.fst := by
                rw [← hkeys]
                exact List.mem_map_of_mem Prod.fst hq
              rcases List.mem_map.mp hqk with ⟨p, hp, hpq⟩
              simp only [List.any_eq_true]
              refine ⟨Json.str p.1, List.mem_map_of_mem _ hp, ?_⟩
              simp [hpq]
            · rw [hnone]
          · rw [if_neg hto]
        · intro ps hps q hq
          rcases hPcase with ⟨props, props', hgp0, hset, _, _, hch⟩ | ⟨hnone, _⟩
          · rw [hps] at hset
            simp only [Option.some.injEq] at hset
            subst hset
            exact (ihProps props ps hgp0 hch q hq).1
          · rw [hps] at hnone
            simp at hnone
        · intro its hits
          rcases hIcase with ⟨its0, its', hgp0, hok, hkey⟩ | ⟨hnone, _⟩
          · have h1' := getObj_some_getKey hits
            rw [hkey] at h1'
            simp only [Option.some.injEq] at h1'
            subst h1'
            exact (ihItems its0 (.obj its) hgp0 hok).1
          · rw [hits] at hnone
            simp at hnone
        · intro xs hxs x hx
          rcases hAncase with ⟨xs0, xs', hgp0, hset, hm⟩ | ⟨hnone, _⟩
          · rw [hxs] at hset
            simp only [Option.some.injEq] at hset
            subst hset
            exact (ihAny xs0 xs hgp0 hm x hx).1
          · rw [hxs] at hnone
            simp at hnone
        · intro xs hxs x hx
          rcases hAlcase with ⟨xs0, xs', hgp0, hset, hm⟩ | ⟨hnone, _⟩
          · rw [hxs] at hset
            simp only [Option.some.injEq] at hset
            subst hset
            exact (ihAll xs0 xs hgp0 hm x hx).1
          · rw [hxs] at hnone
            simp at hnone
        · intro ds hds q hq
          rcases hDcase with ⟨ds0, ds', hgp0, hset, hch⟩ | ⟨hnone, _⟩
          · rw [hds] at hset
            simp only [Option.some.injEq] at hset
            subst hset
            exact (ihDefs ds0 ds hgp0 hch q hq).1
          · rw [hds] at hnone
            simp at hnone
      · -- additionalProperties half, under the precondition
        intro hpre
        apply NodesOk_obj_intro
        · unfold apLocalOk
          rw [hTobj]
          by_cases hto : isTypeObject kvs
          · rw [if_pos hto, hAP6, stepAP_ap]
            by_cases hhk : hasKey kvs "additionalProperties"
            · rw [if_neg (by simp [hto, hhk])]
              have hlocal := (NodesOk_obj_elim apPreLocal kvs hpre).1
              unfold apPreLocal at hlocal
              rw [if_pos (by simp [hto, hhk])] at hlocal
              exact hlocal
            · rw [if_pos (by simp [hto, hhk])]
          · rw [if_neg hto]
        · intro ps hps q hq
          rcases hPcase with ⟨props, props', hgp0, hset, _, _, hch⟩ | ⟨hnone, _⟩
          · rw [hps] at hset
            simp only [Option.some.injEq] at hset
            subst hset
            exact (ihProps props ps hgp0 hch q hq).2 hpre
          · rw [hps] at hnone
            simp at hnone
        · intro its hits
          rcases hIcase with ⟨its0, its', hgp0, hok, hkey⟩ | ⟨hnone, _⟩
          · have h1' := getObj_some_getKey hits
            rw [hkey] at h1'
            simp only [Option.some.injEq] at h1'
            subst h1'
            exact (ihItems its0 (.obj its) hgp0 hok).2 hpre
          · rw [hits] at hnone
            simp at hnone
        · intro xs hxs x hx
          rcases hAncase with ⟨xs0, xs', hgp0, hset, hm⟩ | ⟨hnone, _⟩
          · rw [hxs] at hset
            simp only [Option.some.injEq] at hset
            subst hset
            exact (ihAny xs0 xs hgp0 hm x hx).2 hpre
          · rw [hxs] at hnone
            simp at hnone
        · intro xs hxs x hx
          rcases hAlcase with ⟨xs0, xs', hgp0, hset, hm⟩ | ⟨hnone, _⟩
          · rw [hxs] at hset
            simp only [Option.some.injEq] at hset
            subst hset
            exact (ihAll xs0 xs hgp0 hm x hx).2 hpre
          · rw [hxs] at hnone
            simp at hnone
        · intro ds hds q hq
          rcases hDcase with ⟨ds0, ds', hgp0, hset, hch⟩ | ⟨hnone, _⟩
          · rw [hds] at hset
            simp only [Option.some.injEq] at hset
            subst hset
            exact (ihDefs ds0 ds hgp0 hch q hq).2 hpre
          · rw [hds] at hnone
            simp at hnone

/-- The pydantic schema of a callable with a `dict[str, int]` parameter:
pydantic renders the dict as an object node that already carries an
`additionalProperties` sub-schema (not `false`). -/
def dictParamSchema : Json := .obj [
  ("properties", .obj [("d", .obj [
    ("additionalProperties", .obj [("type", .str "integer")]),
    ("title", .str "D"), ("type", .str "object")])]),
  ("required", .arr [.str "d"]),
  ("title", .str "T"),
  ("type", .str "object")]

/-- Claim C2, counterexample. The claim says every object node of a
strict-mode schema has `additionalProperties = false`. But
`_ensure_strict_json_schema` only inserts the key when it is absent
(line 243: `"additionalProperties" not in json_schema`), so the schema of a
callable with a `dict[str, int]` parameter — whose pydantic object node
already carries `additionalProperties: {"type": "integer"}` — is returned
with that node violating the claimed invariant (while the required-list
half still holds). -/
theorem C2_counterexample :
    ∃ r, to_strict_json_schema dictParamSchema = .ok r
      ∧ allNodes apLocalOk r = false
      ∧ allNodes reqLocalOk r = true :=
  ⟨_, rfl, rfl, rfl⟩

/-- Claim C2, amended. For every callable, the strict-mode schema carries
`strict: true`, and on every node of its `parameters` reachable through
`properties`, `items`, `anyOf` branches, `allOf` branches and `$defs`
entries: every property key of an object node appears in that node's
`required` list (unconditionally), and every object node has
`additionalProperties = false` PROVIDED no object node of the input already
carried an `additionalProperties` key with a different value — the
transform sets the key only where it is absent and never overwrites an
existing value (counterexample). -/
theorem C2_strict_schema_amended (fname desc : String) (ci : Bool) (j : Json)
    (out : List (String × Json))
    (h : get_function_schema fname desc j ci true = .ok out) :
    getKey out "strict" = some (.bool true)
    ∧ ∃ r, getKey out "parameters" = some r
      ∧ to_strict_json_schema j = .ok r
      ∧ allNodes reqLocalOk r = true
      ∧ (allNodes apPreLocal j = true → allNodes apLocalOk r = true) := by
  unfold get_function_schema at h
  simp only [if_true] at h
  cases hs : to_strict_json_schema j with
  | error e => rw [hs] at h; simp at h
  | ok r =>
    rw [hs] at h
    simp only [Except.ok.injEq] at h
    subst h
    have hinv := ensureStrictF_invariant (jsize j) j r (le_refl _) hs
    refine ⟨rfl, r, rfl, rfl, hinv.1 (jsize r) (le_refl _), ?_⟩
    intro hpre
    have hpre' : NodesOk apPreLocal j := by
      intro g hg
      rw [allNodesF_congr apPreLocal g (jsize j) j hg (le_refl _)]
      exact hpre
    exact hinv.2 hpre' (jsize r) (le_refl _)

/-- A clean strict-mode demo schema (no pre-existing `additionalProperties`
anywhere). -/
def strictDemoSchema : Json := .obj [
  ("properties", .obj [("count", .obj [("title", .str "Count"),
    ("type", .str "integer")])]),
  ("required", .arr [.str "count"]),
  ("title", .str "simple_ParameterModel"),
  ("type", .str "object")]

/-- The strict-mode schema generated from `strictDemoSchema`. -/
def strictDemoOut : List (String × Json) := [
  ("name", .str "f"), ("description", .str ""), ("strict", .bool true),
  ("parameters", .obj [
    ("properties", .obj [("count", .obj [("title", .str "Count"),
      ("type", .str "integer")])]),
    ("required", .arr [.str "count"]),
    ("title", .str "simple_ParameterModel"),
    ("type", .str "object"),
    ("additionalProperties", .bool false)])]

/-- Witness for `C2_strict_schema_amended` on a concrete schema without
pre-existing `additionalProperties` keys. -/
theorem C2_strict_schema_amended_witness :
    getKey strictDemoOut "strict" = some (.bool true)
    ∧ allNodes apPreLocal strictDemoSchema = true
    ∧ ∃ r, getKey strictDemoOut "parameters" = some r
        ∧ allNodes reqLocalOk r = true
        ∧ allNodes apLocalOk r = true := by
  obtain ⟨hstrict, r, hpar, _, hreq, hap⟩ :=
    C2_strict_schema_amended "f" "" false strictDemoSchema strictDemoOut rfl
  exact ⟨hstrict, rfl, r, hpar, hreq, hap rfl⟩

/-- Witness for `C1_never_raises_amended` at a concrete well-formed call. -/
theorem C1_never_raises_amended_witness :
    (∃ r, process_tool_call ⟨"1", ⟨"greet", "\x7b\"name\": \"Jo\"\x7d"⟩⟩ [greetTool]
        Option.none true false = .ok r)
    ∨ (true = true
        ∧ (∃ e, json_loads "\x7b\"name\": \"Jo\"\x7d" = .error e)
        ∧ (∃ e2, json_loads (fixArgs "\x7b\"name\": \"Jo\"\x7d") = .error e2)) :=
  C1_never_raises_amended ⟨"1", ⟨"greet", "\x7b\"name\": \"Jo\"\x7d"⟩⟩ [greetTool] true false

/-- Witness for `C7_prefix_handling` at a properly prefixed call. -/
theorem C7_prefix_handling_witness :
    json_loads "\x7b\"relevancy\": \"high\", \"name\": \"Jo\"\x7d"
        = .ok (.obj [("relevancy", .str "high"), ("name", .str "Jo")])
    ∧ (∃ r, process_tool_call
          ⟨"1", ⟨"Reflection_and_greet", "\x7b\"relevancy\": \"high\", \"name\": \"Jo\"\x7d"⟩⟩
          [greetTool] (some reflectionPC) true false = .ok r
        ∧ r.name = dropS "Reflection_and_greet" (("Reflection" : String).data.length + 5))
    ∧ dropS "Reflection_and_greet" (("Reflection" : String).data.length + 5) = "greet" := by
  obtain ⟨_, h2, h3⟩ := C7_prefix_handling
    ⟨"1", ⟨"Reflection_and_greet", "\x7b\"relevancy\": \"high\", \"name\": \"Jo\"\x7d"⟩⟩
    [greetTool] reflectionPC true false
    [("relevancy", .str "high"), ("name", .str "Jo")] rfl
  obtain ⟨hsw, hdrop⟩ := h3 "greet" rfl
  obtain ⟨r, hr, hname⟩ := h2 hsw
  exact ⟨rfl, ⟨r, hr, hname⟩, hdrop⟩

end LLMEasyTools
